import Mathlib

/-!
Verification of the movie-sync media formatter (`src/file_formatter.py`,
`src/format.py`).  The two Python files are near-duplicates; the definitions
below embed the shared core logic: the `(title, year)` parser
`extract_title_year`, the canonical-name formatter `format_name`, the
unwanted-file pruner `remove_unwanted_files`, the subtitle organizer
`organize_subtitles`, and the directory walk `process_directory` /
`process_file` / `process_folder` / `process_folder_contents`.

Strings are modelled as `List Char`.  The Python regular expressions used by
the source are fixed, so each one is embedded as a specialized scanner with
the same semantics (leftmost match, non-greedy `.+?`, `.` not matching a
newline, `re.sub` removing non-overlapping matches left to right,
case-insensitive literal matching for the noise patterns).  File-system
renames follow POSIX `os.rename` semantics: renaming a file onto an existing
file silently replaces the target; renaming onto an existing directory (or a
directory onto a file / non-empty directory) raises an error which the source
catches and reports.
-/

namespace MovieSync

/-- Characters matched by the regex class `\s` (ASCII whitespace). -/
def isSpaceCh (c : Char) : Bool :=
  c = ' ' || c = '\t' || c = '\n' || c = '\r' || c = '\x0b' || c = '\x0c'

/-- Characters matched by `[._]`. -/
def isDotUnd (c : Char) : Bool :=
  c = '.' || c = '_'

/-- ASCII lowercasing, as used both by `str.lower()` and by
case-insensitive pattern matching. -/
def lowerCh (c : Char) : Char := c.toLower

/-- `str.lower()` on a character list. -/
def lowerStr (l : List Char) : List Char := l.map lowerCh

/-- Skip the longest prefix of `\s` characters (a greedy `\s*`). -/
def skipSp (l : List Char) : List Char := l.dropWhile isSpaceCh

/-! ## `pathlib` stem and suffix

`Path(x).name` is the last non-empty path component (with `.` components
dropped); `Path(x).suffix` is the part of the name from its last dot `.`
when that dot is neither the first nor the last character, else empty;
`Path(x).stem` is the name with the suffix removed. -/

/-- Split a character list on `/`. -/
def splitSlash (acc : List Char) : List Char → List (List Char)
  | [] => [acc.reverse]
  | c :: r => if c = '/' then acc.reverse :: splitSlash [] r else splitSlash (c :: acc) r
termination_by structural l => l

/-- Python `Path(s).name`: the last path component, with empty and `.`
components dropped. -/
def pyName (s : String) : String :=
  let comps := (splitSlash [] s.data).filter (fun c => !(c.isEmpty || c = ['.']))
  String.mk (comps.getLastD [])

/-- Index of the last `.` in `l`, if any. -/
def lastDotIdx (l : List Char) : Option Nat :=
  match l.reverse.findIdx? (· = '.') with
  | some k => some (l.length - 1 - k)
  | none => none

/-- Python `Path(s).suffix`. -/
def pySuffix (s : String) : String :=
  match lastDotIdx (pyName s).data with
  | some i =>
    if 0 < i && i < (pyName s).data.length - 1
    then String.mk ((pyName s).data.drop i) else ""
  | none => ""

/-- Python `Path(s).stem`. -/
def pyStem (s : String) : String :=
  match lastDotIdx (pyName s).data with
  | some i =>
    if 0 < i && i < (pyName s).data.length - 1
    then String.mk ((pyName s).data.take i) else String.mk (pyName s).data
  | none => String.mk (pyName s).data

/-! ## Double-parenthesis repair

`re.sub(r"\s*\(\s*\(\s*", " (", name)` and `re.sub(r"\s*\)\s*\)\s*", ") ", name)`. -/

/-- Remainder after a match of `\s*\(\s*\(\s*` at the head of `l`, if any. -/
def dblOpenRest (l : List Char) : Option (List Char) :=
  match skipSp l with
  | c1 :: r1 =>
    if c1 = '(' then
      match skipSp r1 with
      | c2 :: r2 => if c2 = '(' then some (skipSp r2) else none
      | [] => none
    else none
  | [] => none

/-- Remainder after a match of `\s*\)\s*\)\s*` at the head of `l`, if any. -/
def dblCloseRest (l : List Char) : Option (List Char) :=
  match skipSp l with
  | c1 :: r1 =>
    if c1 = ')' then
      match skipSp r1 with
      | c2 :: r2 => if c2 = ')' then some (skipSp r2) else none
      | [] => none
    else none
  | [] => none

/-- Embedding of `re.sub(r"\s*\(\s*\(\s*", " (", ·)`: scan left to right,
replacing each non-overlapping match by `" ("`.  The fuel argument only
makes the recursion structural; every step consumes at least one character,
so `l.length + 1` is always enough. -/
def subDblOpenF : Nat → List Char → List Char
  | 0, l => l
  | fuel + 1, l =>
    match dblOpenRest l with
    | some rest => ' ' :: '(' :: subDblOpenF fuel rest
    | none =>
      match l with
      | [] => []
      | c :: r => c :: subDblOpenF fuel r
termination_by structural fuel _ => fuel

def subDblOpen (l : List Char) : List Char := subDblOpenF (l.length + 1) l

/-- Embedding of `re.sub(r"\s*\)\s*\)\s*", ") ", ·)` (fuelled as above). -/
def subDblCloseF : Nat → List Char → List Char
  | 0, l => l
  | fuel + 1, l =>
    match dblCloseRest l with
    | some rest => ')' :: ' ' :: subDblCloseF fuel rest
    | none =>
      match l with
      | [] => []
      | c :: r => c :: subDblCloseF fuel r
termination_by structural fuel _ => fuel

def subDblClose (l : List Char) : List Char := subDblCloseF (l.length + 1) l

/-! ## Release-noise patterns

`self.release_patterns` is a fixed ordered list of regexes, each applied by
`re.sub(pattern, "", title, flags=re.IGNORECASE)`.  The patterns have three
shapes: `\[.*?X.*?\]`, plain (case-insensitive) literals, and the single
pattern `\.AAC5?\.1`. -/

inductive NPat where
  /-- A plain literal such as `-RARBG` or `\.x264\.` (the escaped dots are
  literal dots). -/
  | lit (p : List Char)
  /-- Pattern `\[.*?X.*?\]` for a literal `X`. -/
  | brk (x : List Char)
  /-- Pattern `\.AAC5?\.1`. -/
  | aac
  deriving DecidableEq

/-- Case-insensitive: `p` is a prefix of `l`. -/
def ciStarts (p l : List Char) : Bool :=
  match p, l with
  | [], _ => true
  | _ :: _, [] => false
  | a :: p1, b :: l1 => lowerCh a = lowerCh b && ciStarts p1 l1

/-- Scan for the first `]` reachable through non-newline characters;
returns the number of characters consumed including the `]`. -/
def closeAfter (l : List Char) : Option Nat :=
  match l with
  | [] => none
  | c :: r =>
    if c = ']' then some 1
    else if c = '\n' then none
    else (closeAfter r).map (· + 1)

/-- Inner scan of `\[.*?X.*?\]` after the opening `[`: try each position for
the non-greedy `.*?X`; for a candidate position of `X`, the following
`.*?\]` must reach a `]` through non-newline characters, else the engine
backtracks to a later occurrence of `X`.  Returns characters consumed. -/
def brkAux (x : List Char) (l : List Char) : Option Nat :=
  match l with
  | [] => none
  | c :: r =>
    if ciStarts x l then
      match closeAfter (l.drop x.length) with
      | some m => some (x.length + m)
      | none =>
        if c = '\n' then none
        else (brkAux x r).map (· + 1)
    else
      if c = '\n' then none
      else (brkAux x r).map (· + 1)

/-- Number of characters consumed by a match of the pattern at the head of
`l`, if the pattern matches there. -/
def npatLen (p : NPat) (l : List Char) : Option Nat :=
  match p with
  | .lit q =>
    match q with
    | [] => none
    | _ :: _ => if ciStarts q l then some q.length else none
  | .brk x =>
    match l with
    | c :: r => if c = '[' then (brkAux x r).map (· + 1) else none
    | [] => none
  | .aac =>
    if ciStarts ".AAC5.1".data l then some 7
    else if ciStarts ".AAC.1".data l then some 6
    else none

/-- Embedding of `re.sub(pattern, "", s, flags=re.IGNORECASE)` for one noise
pattern: remove every non-overlapping match, scanning left to right and
continuing after each match end.  The fuel argument only makes the
recursion structural; every step consumes at least one character, so
`l.length + 1` is always enough. -/
def subNPatF (p : NPat) : Nat → List Char → List Char
  | 0, l => l
  | fuel + 1, l =>
    match l with
    | [] => []
    | c :: r =>
      match npatLen p (c :: r) with
      | some n => subNPatF p fuel ((c :: r).drop n)
      | none => c :: subNPatF p fuel r
termination_by structural fuel _ => fuel

def subNPat (p : NPat) (l : List Char) : List Char := subNPatF p (l.length + 1) l

/-- The list `self.release_patterns`, in source order. -/
def release_patterns : List NPat :=
  [ .brk "YTS".data
  , .brk "RARBG".data
  , .brk "1080p".data
  , .brk "720p".data
  , .brk "480p".data
  , .brk "WEBRip".data
  , .brk "BluRay".data
  , .brk "BRRip".data
  , .brk "HDRip".data
  , .brk "DVDRip".data
  , .brk "x264".data
  , .brk "x265".data
  , .brk "HEVC".data
  , .brk "5.1".data
  , .brk "AAC".data
  , .lit ".1080p.".data
  , .lit ".720p.".data
  , .lit ".480p.".data
  , .lit ".WEBRip.".data
  , .lit ".BluRay.".data
  , .lit ".BRRip.".data
  , .lit ".HDRip.".data
  , .lit ".DVDRip.".data
  , .lit ".x264.".data
  , .lit ".x265.".data
  , .lit ".HEVC.".data
  , .aac
  , .lit "-[YTS.MX]".data
  , .lit "-RARBG".data
  , .lit ".YTS.MX".data
  , .lit ".RARBG".data
  ]

/-- The `for pattern in self.release_patterns: title = re.sub(...)` loop. -/
def noiseSub (l : List Char) : List Char :=
  release_patterns.foldl (fun acc p => subNPat p acc) l

/-! ## Whitespace / separator cleanup -/

mutual
/-- Embedding of `re.sub(r"[._]+", " ", ·)`: replace each maximal run of
`.`/`_` by one space. -/
def dotsToSpace (l : List Char) : List Char :=
  match l with
  | [] => []
  | c :: r => if isDotUnd c then ' ' :: dotsRun r else c :: dotsToSpace r

/-- Consume the rest of a `[._]+` run. -/
def dotsRun (l : List Char) : List Char :=
  match l with
  | [] => []
  | c :: r => if isDotUnd c then dotsRun r else c :: dotsToSpace r
end

mutual
/-- Embedding of `re.sub(r"\s+", " ", ·)`: replace each maximal whitespace
run by one space. -/
def collapseWs (l : List Char) : List Char :=
  match l with
  | [] => []
  | c :: r => if isSpaceCh c then ' ' :: wsRun r else c :: collapseWs r

/-- Consume the rest of a `\s+` run. -/
def wsRun (l : List Char) : List Char :=
  match l with
  | [] => []
  | c :: r => if isSpaceCh c then wsRun r else c :: collapseWs r
end

/-- Drop matching characters from the end of a list. -/
def dropEndWhile (p : Char → Bool) (l : List Char) : List Char :=
  (l.reverse.dropWhile p).reverse

/-- Python `str.strip()` (no argument): strip whitespace from both ends. -/
def stripWs (l : List Char) : List Char :=
  dropEndWhile isSpaceCh (l.dropWhile isSpaceCh)

/-- The character set of `title.strip(" .-_()[]{}")`. -/
def stripSetChars : List Char :=
  [' ', '.', '-', '_', '(', ')', '[', ']', Char.ofNat 123, Char.ofNat 125]

def inStripSet (c : Char) : Bool := stripSetChars.contains c

/-- Python `title.strip(" .-_()[]\x7b\x7d")` (the set ends with the two
brace characters). -/
def stripSet (l : List Char) : List Char :=
  dropEndWhile inStripSet (l.dropWhile inStripSet)

/-- The title-cleanup block shared by both branches of
`extract_title_year`: `group(1).strip()`, the noise-pattern passes, the
`[._]+` collapse, the `\s+` collapse with `strip()`, and the final
`strip(" .-_()[]{}")`. -/
def cleanTitle (c : List Char) : List Char :=
  stripSet (stripWs (collapseWs (dotsToSpace (noiseSub (stripWs c)))))

/-! ## The year scanners

Primary: `re.search(r"^(.+?)\s*\(\s*((19|20)\d{2})\s*\).*$", name)`.
Fallback: `re.search(r"^(.+?)\s*\(\s*(19|20)\s*\).*$", name)`. -/

/-- Semantics of `.*$` on the remaining text: `.` does not match a newline and `$`
matches at the end or just before a final newline. -/
def dotStarEnd (l : List Char) : Bool :=
  match l.reverse with
  | [] => true
  | c :: rest =>
    if c = '\n' then rest.all (· ≠ '\n') else (c :: rest).all (· ≠ '\n')

/-- Match `\s*\(\s*((19|20)\d{2})\s*\).*$` at the head of `l`, returning the
captured year. -/
def tailYear (l : List Char) : Option (List Char) :=
  match skipSp l with
  | c0 :: r1 =>
    if c0 = '(' then
      match skipSp r1 with
      | c1 :: c2 :: d1 :: d2 :: r2 =>
        if ((c1 = '1' && c2 = '9') || (c1 = '2' && c2 = '0'))
            && d1.isDigit && d2.isDigit then
          match skipSp r2 with
          | c3 :: r3 =>
            if c3 = ')' then
              if dotStarEnd r3 then some [c1, c2, d1, d2] else none
            else none
          | [] => none
        else none
      | _ => none
    else none
  | [] => none

/-- Match `\s*\(\s*(19|20)\s*\).*$` at the head of `l`, returning the
captured two-digit marker. -/
def tailTrunc (l : List Char) : Option (List Char) :=
  match skipSp l with
  | c0 :: r1 =>
    if c0 = '(' then
      match skipSp r1 with
      | c1 :: c2 :: r2 =>
        if (c1 = '1' && c2 = '9') || (c1 = '2' && c2 = '0') then
          match skipSp r2 with
          | c3 :: r3 =>
            if c3 = ')' then
              if dotStarEnd r3 then some [c1, c2] else none
            else none
          | [] => none
        else none
      | _ => none
    else none
  | [] => none

/-- The non-greedy `^(.+?)` loop: grow the (nonempty, newline-free) title
until `tail` matches, scanning left to right. -/
def scanAux (tail : List Char → Option (List Char)) (acc : List Char) :
    List Char → Option (List Char × List Char)
  | [] =>
    match tail [] with
    | some y => some (acc.reverse, y)
    | none => none
  | c :: r =>
    match tail (c :: r) with
    | some y => some (acc.reverse, y)
    | none => if c = '\n' then none else scanAux tail (c :: acc) r
termination_by structural l => l

/-- Run an anchored `re.search` with the pattern `^(.+?)<tail>`: the first
title character is consumed (the title is nonempty), then `scanAux` grows
the title until `tail` matches. -/
def scanWith (tail : List Char → Option (List Char)) (l : List Char) :
    Option (List Char × List Char) :=
  match l with
  | [] => none
  | c :: r => if c = '\n' then none else scanAux tail [c] r

/-- Run `re.search` for the primary pattern: returns `(group(1), group(2))`. -/
def scanYear (l : List Char) : Option (List Char × List Char) :=
  scanWith tailYear l

/-- Run `re.search` for the truncated-marker pattern. -/
def scanTrunc (l : List Char) : Option (List Char × List Char) :=
  scanWith tailTrunc l

/-! ## `extract_title_year` -/

/-- The stem of the input after the two double-parenthesis repairs. -/
def repairedStem (filename : String) : List Char :=
  subDblClose (subDblOpen (pyStem filename).data)

/-- Embedding of `extract_title_year`, together with the truncated-year warnings it
prints.  Returns `none` when neither pattern matches or when the cleaned
title is empty. -/
def extract_title_year_w (filename : String) :
    Option (String × String) × List String :=
  let name := repairedStem filename
  match scanYear name with
  | some (c, y) =>
    let t := cleanTitle c
    ((if t = [] then none else some (String.mk t, String.mk y)), [])
  | none =>
    match scanTrunc name with
    | some (c, m) =>
      let yearFull : String := if m = ['1', '9'] then "1999" else "2020"
      let t := cleanTitle c
      ((if t = [] then none else some (String.mk t, yearFull)),
       ["    Found truncated year (" ++ String.mk m ++ ") - using "
        ++ yearFull ++ " as default"])
    | none => (none, [])

/-- The function `extract_title_year` itself (the returned value). -/
def extract_title_year (filename : String) : Option (String × String) :=
  (extract_title_year_w filename).1

/-- Python `format_name(title, year)`: the title, a space, and the year in
parentheses. -/
def format_name (title year : String) : String :=
  title ++ " (" ++ year ++ ")"

/-! ## File-system model

A directory listing is a list of entries; list order is the (otherwise
unspecified) `iterdir` order.  A file carries an abstract content tag so
that silent overwrites are observable.  Renames follow POSIX `os.rename`:
file onto existing file replaces the target silently; file onto directory,
directory onto file, and directory onto non-empty directory raise (the
source catches the exception and reports it); directory onto empty
directory replaces it. -/

inductive FSEntry where
  /-- A regular file with an abstract content tag. -/
  | file (name : String) (content : Nat)
  /-- A directory with its children in listing order. -/
  | dir (name : String) (children : List FSEntry)

abbrev Listing := List FSEntry

def FSEntry.name : FSEntry → String
  | .file n _ => n
  | .dir n _ => n

def FSEntry.isFile : FSEntry → Bool
  | .file _ _ => true
  | .dir _ _ => false

def contentOf : FSEntry → Nat
  | .file _ c => c
  | .dir _ _ => 0

def lookupEntry (l : Listing) (n : String) : Option FSEntry :=
  l.find? (fun e => e.name = n)

/-- `self.video_extensions`. -/
def video_extensions : List String :=
  [".mp4", ".mkv", ".avi", ".mov", ".wmv", ".flv", ".webm", ".m4v"]

/-- `self.subtitle_extensions`. -/
def subtitle_extensions : List String :=
  [".srt", ".sub", ".ass", ".ssa", ".vtt", ".idx", ".sup"]

/-- `self.unwanted_extensions`. -/
def unwanted_extensions : List String :=
  [".txt", ".url", ".lnk", ".nfo", ".jpg", ".jpeg", ".png", ".gif",
   ".bmp", ".exe", ".msi", ".zip", ".rar", ".7z"]

/-- Python `path.suffix.lower()`. -/
def suffixLower (n : String) : String :=
  String.mk (lowerStr (pySuffix n).data)

/-- Reported facts: the per-item lines the tool prints (renames, moves,
deletions, already-formatted and no-year notices, caught errors, truncated
year warnings). -/
inductive Event where
  | renamed (oldName newName : String)
  | already (n : String)
  | noYear (n : String)
  | deleted (p : String)
  | movedSub (oldName newName : String)
  | subErr (n : String)
  | renameErr (n : String)
  | warned (msg : String)
  deriving DecidableEq, Repr

/-- POSIX `os.rename` of a file within one directory (callers only invoke
it with `src ≠ dst` and when `dst` is not a directory): the entry named
`src` takes the name `dst`, and an existing file named `dst` is silently
replaced. -/
def renameFileOver (l : Listing) (src dst : String) : Listing :=
  (l.filter (fun e => e.name ≠ dst)).map
    (fun e => if e.name = src then
        match e with
        | .file _ c => .file dst c
        | .dir _ kids => .dir dst kids
      else e)

/-- Embedding of `remove_unwanted_files`: walk every entry at every depth
(`rglob`), delete each regular file whose lowercased suffix is unwanted,
and return the new tree together with the deleted paths. -/
def remove_unwanted_aux (pre : String) (l : Listing) : Listing × List String :=
  match l with
  | [] => ([], [])
  | .file n c :: rest =>
    let (r, d) := remove_unwanted_aux pre rest
    if unwanted_extensions.contains (suffixLower n) then (r, (pre ++ n) :: d)
    else (.file n c :: r, d)
  | .dir n kids :: rest =>
    let (k, dk) := remove_unwanted_aux (pre ++ n ++ "/") kids
    let (r, d) := remove_unwanted_aux pre rest
    (.dir n k :: r, dk ++ d)

/-- `remove_unwanted_files(directory)` on the directory's listing. -/
def remove_unwanted_files (l : Listing) : Listing × List String :=
  remove_unwanted_aux "" l

/-- Place a (detached, already renamed) file into the `Subs` subdirectory,
replacing any existing file of that name; `none` when `Subs` is not a
directory, in which case `shutil.move` raises. -/
def putInSubs (l : Listing) (f : FSEntry) : Option Listing :=
  match lookupEntry l "Subs" with
  | some (.dir _ _) =>
    some (l.map (fun e => match e with
      | .dir n kids =>
        if n = "Subs" then
          .dir n ((kids.filter (fun k => k.name ≠ f.name)) ++ [f])
        else e
      | _ => e))
  | _ => none

/-- The `for i, sub_file in enumerate(subtitle_files[1:], 1)` move loop of
`organize_subtitles`: the file with index `i = 1` is moved to
`Subs/{movie_name}.{suffix}` and files with `i > 1` to
`Subs/{movie_name}.{i}{suffix}` (braces denote Python interpolation). -/
def moveLoop (movie_name : String) : Listing → List FSEntry → Nat → Listing × List Event
  | l, [], _ => (l, [])
  | l, s :: rest, i =>
    let new_name :=
      if i > 1 then movie_name ++ "." ++ toString i ++ pySuffix s.name
      else movie_name ++ "." ++ pySuffix s.name
    match putInSubs (l.filter (fun e => e.name ≠ s.name))
        (.file new_name (contentOf s)) with
    | some l2 =>
      let (l3, ev) := moveLoop movie_name l2 rest (i + 1)
      (l3, .movedSub s.name new_name :: ev)
    | none =>
      let (l3, ev) := moveLoop movie_name l rest (i + 1)
      (l3, .movedSub s.name new_name :: .subErr s.name :: ev)
termination_by structural l subs i => subs

/-- Embedding of `organize_subtitles(movie_dir, movie_name)` acting on the
directory's listing. -/
def organize_subtitles (l : Listing) (movie_name : String) : Listing × List Event :=
  let subtitle_files := l.filter
    (fun e => e.isFile && subtitle_extensions.contains (suffixLower e.name))
  match subtitle_files with
  | [] => (l, [])
  | main :: restSubs =>
    let (l1, ev1) :=
      if restSubs.isEmpty then (l, [])
      else
        let l0 := if (lookupEntry l "Subs").isSome then l
                  else l ++ [.dir "Subs" []]
        moveLoop movie_name l0 restSubs 1
    let new_sub_name := movie_name ++ pySuffix main.name
    if main.name ≠ new_sub_name then
      match lookupEntry l1 new_sub_name with
      | some (.dir _ _) =>
        (l1, ev1 ++ [.renamed main.name new_sub_name, .renameErr main.name])
      | _ =>
        (renameFileOver l1 main.name new_sub_name,
         ev1 ++ [.renamed main.name new_sub_name])
    else (l1, ev1)

/-- Embedding of `process_file(file_path)` acting on the root listing:
skip non-videos, else parse the name and rename to the canonical stem. -/
def process_file (l : Listing) (n : String) : Listing × List Event :=
  if !(video_extensions.contains (suffixLower n)) then (l, [])
  else
    match extract_title_year_w n with
    | (none, ws) => (l, ws.map .warned ++ [.noYear n])
    | (some (t, y), ws) =>
      let new_name := format_name t y ++ pySuffix n
      if n ≠ new_name then
        match lookupEntry l new_name with
        | some (.dir _ _) =>
          (l, ws.map .warned ++ [.renamed n new_name, .renameErr n])
        | _ =>
          (renameFileOver l n new_name, ws.map .warned ++ [.renamed n new_name])
      else (l, ws.map .warned ++ [.already n])

/-- The `for i, video_file in enumerate(video_files)` loop of
`process_folder_contents`: each snapshot video is renamed to the folder
name plus its own suffix (skipping those already so named). -/
def videoLoop (folder_name : String) : Listing → List String → Listing × List Event
  | l, [] => (l, [])
  | l, v :: rest =>
    let new_video_name := folder_name ++ pySuffix v
    if v ≠ new_video_name then
      match lookupEntry l new_video_name with
      | some (.dir _ _) =>
        let (l2, ev) := videoLoop folder_name l rest
        (l2, .renamed v new_video_name :: .renameErr v :: ev)
      | _ =>
        let (l2, ev) := videoLoop folder_name (renameFileOver l v new_video_name) rest
        (l2, .renamed v new_video_name :: ev)
    else
      let (l2, ev) := videoLoop folder_name l rest
      (l2, .already v :: ev)
termination_by structural l vs => vs

/-- Embedding of `process_folder_contents(folder_path, ·, folder_name)`:
prune unwanted files, rename every direct-child video to the folder name,
then organize subtitles (only when videos are present). -/
def process_folder_contents (kids : Listing) (folder_name : String) :
    Listing × List Event :=
  let (k1, removed) := remove_unwanted_files kids
  let video_files := (k1.filter
    (fun e => e.isFile && video_extensions.contains (suffixLower e.name))).map
    (fun e => e.name)
  let (k2, ev2) := videoLoop folder_name k1 video_files
  let (k3, ev3) :=
    if video_files.isEmpty then (k2, [])
    else organize_subtitles k2 folder_name
  (k3, removed.map .deleted ++ ev2 ++ ev3)

/-- Replace the children of the directory named `n`. -/
def replaceDirChildren (l : Listing) (n : String) (kids : Listing) : Listing :=
  l.map (fun e => match e with
    | .dir m _ => if m = n then .dir m kids else e
    | _ => e)

/-- Rename the directory named `n` to `m`, keeping its children. -/
def renameDirEntry (l : Listing) (n m : String) : Listing :=
  l.map (fun e => if e.name = n then
      match e with
      | .dir _ kids => .dir m kids
      | .file _ c => .file m c
    else e)

/-- Embedding of `process_folder(folder_path)` acting on the root listing:
parse the folder name; on failure keep the name and still process the
contents; on success rename the folder to the canonical name (a raised
rename error aborts the folder) and process the contents under it. -/
def process_folder (l : Listing) (n : String) : Listing × List Event :=
  match lookupEntry l n with
  | some (.dir _ kids) =>
    match extract_title_year_w n with
    | (none, ws) =>
      let (k1, ev) := process_folder_contents kids n
      (replaceDirChildren l n k1, ws.map .warned ++ .noYear n :: ev)
    | (some (t, y), ws) =>
      let formatted_name := format_name t y
      if n ≠ formatted_name then
        match lookupEntry l formatted_name with
        | some (.file _ _) =>
          (l, ws.map .warned ++ [.renamed n formatted_name, .renameErr n])
        | some (.dir _ k2) =>
          if k2.isEmpty then
            let l1 := renameDirEntry (l.filter (fun e => e.name ≠ formatted_name))
              n formatted_name
            let (k1, ev) := process_folder_contents kids formatted_name
            (replaceDirChildren l1 formatted_name k1,
             ws.map .warned ++ .renamed n formatted_name :: ev)
          else
            (l, ws.map .warned ++ [.renamed n formatted_name, .renameErr n])
        | none =>
          let l1 := renameDirEntry l n formatted_name
          let (k1, ev) := process_folder_contents kids formatted_name
          (replaceDirChildren l1 formatted_name k1,
           ws.map .warned ++ .renamed n formatted_name :: ev)
      else
        let (k1, ev) := process_folder_contents kids n
        (replaceDirChildren l n k1, ws.map .warned ++ .already n :: ev)
  | _ => (l, [])

/-! ## The directory walk -/

/-- Lexicographic order on character lists by code point, as Python
compares strings. -/
def lexLe : List Char → List Char → Bool
  | [], _ => true
  | _ :: _, [] => false
  | x :: xs, y :: ys => if x = y then lexLe xs ys else decide (x < y)

/-- The sort key comparison of
`items.sort(key=lambda x: (x.is_file(), x.name.lower()))`:
lexicographic on the pair, with `False < True`. -/
def itemLe (a b : String × Bool) : Bool :=
  if a.2 = b.2 then lexLe (lowerStr a.1.data) (lowerStr b.1.data)
  else (!a.2 && b.2)

/-- The sorted snapshot of the root listing: names with their kinds at
snapshot time, folders before files, each group name-sorted
case-insensitively (stable). -/
def sortedChildren (l : Listing) : List (String × Bool) :=
  (l.map (fun e => (e.name, e.isFile))).mergeSort itemLe

/-- The iteration of `process_directory` over the sorted snapshot: each
snapshot name is re-examined live (`is_file()` / `is_dir()` at loop time);
entries that disappeared meanwhile are skipped. -/
def processItems : Listing → List (String × Bool) → Listing × List Event
  | l, [] => (l, [])
  | l, (n, _) :: rest =>
    let (l1, ev1) :=
      match lookupEntry l n with
      | some (.file _ _) => process_file l n
      | some (.dir _ _) => process_folder l n
      | none => (l, [])
    let (l2, ev2) := processItems l1 rest
    (l2, ev1 ++ ev2)
termination_by structural l items => items

/-- Embedding of `process_directory(base_path)` on the root listing. -/
def process_directory (l : Listing) : Listing × List Event :=
  processItems l (sortedChildren l)


/-! ## Declarative occurrence predicates for the year scanners -/

/-- Shape of a captured primary year: `(19|20)\d{2}`. -/
def yearShape (y : List Char) : Bool :=
  match y with
  | [c1, c2, d1, d2] =>
    ((c1 = '1' && c2 = '9') || (c1 = '2' && c2 = '0')) && d1.isDigit && d2.isDigit
  | _ => false

/-- Shape of a truncated marker: `19` or `20`. -/
def markShape (m : List Char) : Bool :=
  match m with
  | [c1, c2] => (c1 = '1' && c2 = '9') || (c1 = '2' && c2 = '0')
  | _ => false

/-- A parenthesized 4-digit-year group of `s` at split position `j`: a
nonempty, newline-free title prefix `s.take j` followed by a tail matching
`\s*\(\s*((19|20)\d{2})\s*\).*$`. -/
def OccYear (s : List Char) (j : Nat) : Prop :=
  1 ≤ j ∧ (s.take j).all (· ≠ '\n') = true ∧ (tailYear (s.drop j)).isSome = true

instance (s : List Char) (j : Nat) : Decidable (OccYear s j) := by
  unfold OccYear; infer_instance

/-- A truncated 2-digit marker group of `s` at split position `j`. -/
def OccTrunc (s : List Char) (j : Nat) : Prop :=
  1 ≤ j ∧ (s.take j).all (· ≠ '\n') = true ∧ (tailTrunc (s.drop j)).isSome = true

instance (s : List Char) (j : Nat) : Decidable (OccTrunc s j) := by
  unfold OccTrunc; infer_instance


/-- The visit order C9 claims: folders strictly before files, and within a
kind case-insensitively name-sorted. -/
def childOrder (a b : String × Bool) : Prop :=
  (a.2 = false ∧ b.2 = true) ∨
  (a.2 = b.2 ∧ lexLe (lowerStr a.1.data) (lowerStr b.1.data) = true)


/-- All regular files under a listing at every depth, with the directory
path prefix each sits under. -/
def filesOf (pre : String) : Listing → List (String × String × Nat)
  | [] => []
  | .file n c :: rest => (pre, n, c) :: filesOf pre rest
  | .dir n kids :: rest => filesOf (pre ++ n ++ "/") kids ++ filesOf pre rest


/-! ## Scanner characterization lemmas -/

theorem tailYear_nil : tailYear [] = none := rfl

theorem tailTrunc_nil : tailTrunc [] = none := rfl

theorem scanAux_eq_some_iff (tail : List Char → Option (List Char))
    (acc rest : List Char) (c y : List Char) :
    scanAux tail acc rest = some (c, y) ↔
      ∃ k, c = acc.reverse ++ rest.take k ∧ (rest.take k).all (· ≠ '\n') = true ∧
        tail (rest.drop k) = some y ∧ ∀ i < k, tail (rest.drop i) = none := by
  induction rest generalizing acc with
  | nil =>
    simp only [scanAux]
    cases ht : tail [] with
    | some y0 =>
      simp only [Option.some.injEq, Prod.mk.injEq]
      constructor
      · rintro ⟨h1, h2⟩
        exact ⟨0, by simp [h1.symm], by simp, by simp [ht, h2], by omega⟩
      · rintro ⟨k, h1, -, h3, h4⟩
        rcases Nat.eq_zero_or_pos k with rfl | hk
        · simp only [List.drop_nil] at h3
          rw [ht] at h3
          simp only [List.take_nil, List.append_nil] at h1
          cases h3
          exact ⟨h1.symm, rfl⟩
        · have h5 := h4 0 hk
          simp only [List.drop_nil] at h5
          rw [ht] at h5
          cases h5
    | none =>
      constructor
      · intro h
        cases h
      · rintro ⟨k, -, -, h3, -⟩
        simp only [List.drop_nil] at h3
        rw [ht] at h3
        exact absurd h3 (by simp)
  | cons c0 r ih =>
    simp only [scanAux]
    cases ht : tail (c0 :: r) with
    | some y0 =>
      simp only [Option.some.injEq, Prod.mk.injEq]
      constructor
      · rintro ⟨h1, h2⟩
        exact ⟨0, by simp [h1.symm], by simp, by simp [ht, h2], by omega⟩
      · rintro ⟨k, h1, h2, h3, h4⟩
        rcases Nat.eq_zero_or_pos k with rfl | hk
        · simp only [List.drop_zero] at h3
          rw [ht] at h3
          cases h3
          simp only [List.take_zero, List.append_nil] at h1
          exact ⟨h1.symm, rfl⟩
        · have h5 := h4 0 hk
          simp only [List.drop_zero] at h5
          rw [ht] at h5
          cases h5
    | none =>
      by_cases hc : c0 = '\n'
      · subst hc
        simp only [if_pos rfl]
        constructor
        · intro h
          cases h
        · rintro ⟨k, h1, h2, h3, h4⟩
          rcases Nat.eq_zero_or_pos k with rfl | hk
          · simp only [List.drop_zero] at h3
            rw [ht] at h3
            cases h3
          · obtain ⟨k2, rfl⟩ := Nat.exists_eq_add_of_le hk
            rw [Nat.add_comm] at h2
            simp only [List.take_succ_cons, List.all_cons] at h2
            simp at h2
      · rw [if_neg hc]
        rw [ih (c0 :: acc)]
        constructor
        · rintro ⟨k, h1, h2, h3, h4⟩
          refine ⟨k + 1, ?_, ?_, ?_, ?_⟩
          · simpa using h1
          · simp only [List.take_succ_cons, List.all_cons, Bool.and_eq_true]
            exact ⟨by simpa using hc, h2⟩
          · simpa using h3
          · intro i hi
            cases i with
            | zero => simpa using ht
            | succ i2 =>
              have h5 := h4 i2 (by omega)
              simpa using h5
        · rintro ⟨k, h1, h2, h3, h4⟩
          rcases Nat.eq_zero_or_pos k with rfl | hk
          · simp only [List.drop_zero] at h3
            rw [ht] at h3
            cases h3
          · obtain ⟨k2, rfl⟩ := Nat.exists_eq_add_of_le hk
            rw [Nat.add_comm] at h1 h2 h3 h4
            refine ⟨k2, ?_, ?_, ?_, ?_⟩
            · simpa using h1
            · simp only [List.take_succ_cons, List.all_cons, Bool.and_eq_true] at h2
              exact h2.2
            · simpa using h3
            · intro i hi
              have h5 := h4 (i + 1) (by omega)
              simpa using h5


theorem scanAux_eq_none_iff (tail : List Char → Option (List Char))
    (acc rest : List Char) :
    scanAux tail acc rest = none ↔
      ∀ k, (rest.take k).all (· ≠ '\n') = true → tail (rest.drop k) = none := by
  induction rest generalizing acc with
  | nil =>
    simp only [scanAux]
    cases ht : tail [] with
    | some y0 =>
      constructor
      · intro h
        cases h
      · intro h
        have h0 := h 0 (by simp)
        simp only [List.drop_nil] at h0
        rw [ht] at h0
        cases h0
    | none =>
      simp only [true_iff]
      intro k _
      simpa using ht
  | cons c0 r ih =>
    simp only [scanAux]
    cases ht : tail (c0 :: r) with
    | some y0 =>
      constructor
      · intro h
        cases h
      · intro h
        have h0 := h 0 (by simp)
        simp only [List.drop_zero] at h0
        rw [ht] at h0
        cases h0
    | none =>
      by_cases hc : c0 = '\n'
      · subst hc
        rw [if_pos rfl]
        refine iff_of_true rfl ?_
        intro k hk
        cases k with
        | zero => simpa using ht
        | succ k2 =>
          simp only [List.take_succ_cons, List.all_cons, Bool.and_eq_true] at hk
          simp at hk
      · rw [if_neg hc, ih (c0 :: acc)]
        constructor
        · intro h k hk
          cases k with
          | zero => simpa using ht
          | succ k2 =>
            simp only [List.take_succ_cons, List.all_cons, Bool.and_eq_true] at hk
            have h5 := h k2 hk.2
            simpa using h5
        · intro h k hk
          have h5 := h (k + 1) (by
            simp only [List.take_succ_cons, List.all_cons, Bool.and_eq_true]
            exact ⟨by simpa using hc, hk⟩)
          simpa using h5

theorem scanWith_eq_some_iff (tail : List Char → Option (List Char))
    (h0 : tail [] = none) (s c y : List Char) :
    scanWith tail s = some (c, y) ↔
      ∃ j, 1 ≤ j ∧ c = s.take j ∧ (s.take j).all (· ≠ '\n') = true ∧
        tail (s.drop j) = some y ∧ ∀ i, 1 ≤ i → i < j → tail (s.drop i) = none := by
  cases s with
  | nil =>
    simp only [scanWith]
    constructor
    · intro h
      cases h
    · rintro ⟨j, hj, -, -, h3, -⟩
      simp only [List.drop_nil] at h3
      rw [h0] at h3
      exact absurd h3 (by simp)
  | cons c0 r =>
    simp only [scanWith]
    by_cases hc : c0 = '\n'
    · subst hc
      simp only [if_pos rfl]
      constructor
      · intro h
        cases h
      · rintro ⟨j, hj, -, h2, -, -⟩
        obtain ⟨j2, rfl⟩ := Nat.exists_eq_add_of_le hj
        rw [Nat.add_comm] at h2
        simp only [List.take_succ_cons, List.all_cons, Bool.and_eq_true] at h2
        simp at h2
    · rw [if_neg hc, scanAux_eq_some_iff]
      constructor
      · rintro ⟨k, h1, h2, h3, h4⟩
        refine ⟨k + 1, by omega, by simpa using h1, ?_, by simpa using h3, ?_⟩
        · simp only [List.take_succ_cons, List.all_cons, Bool.and_eq_true]
          exact ⟨by simpa using hc, h2⟩
        · intro i hi1 hi2
          obtain ⟨i2, rfl⟩ := Nat.exists_eq_add_of_le hi1
          rw [Nat.add_comm] at hi2 ⊢
          have h5 := h4 i2 (by omega)
          simpa using h5
      · rintro ⟨j, hj, h1, h2, h3, h4⟩
        obtain ⟨j2, rfl⟩ := Nat.exists_eq_add_of_le hj
        rw [Nat.add_comm] at h1 h2 h3 h4
        refine ⟨j2, by simpa using h1, ?_, by simpa using h3, ?_⟩
        · simp only [List.take_succ_cons, List.all_cons, Bool.and_eq_true] at h2
          exact h2.2
        · intro i hi
          have h5 := h4 (i + 1) (by omega) (by omega)
          simpa using h5

theorem scanWith_eq_none_iff (tail : List Char → Option (List Char))
    (h0 : tail [] = none) (s : List Char) :
    scanWith tail s = none ↔
      ∀ j, 1 ≤ j → (s.take j).all (· ≠ '\n') = true → tail (s.drop j) = none := by
  cases s with
  | nil =>
    simp only [scanWith, true_iff]
    intro j _ _
    simpa using h0
  | cons c0 r =>
    simp only [scanWith]
    by_cases hc : c0 = '\n'
    · subst hc
      rw [if_pos rfl]
      refine iff_of_true rfl ?_
      intro j hj h2
      obtain ⟨j2, rfl⟩ := Nat.exists_eq_add_of_le hj
      rw [Nat.add_comm] at h2
      simp only [List.take_succ_cons, List.all_cons, Bool.and_eq_true] at h2
      simp at h2
    · rw [if_neg hc, scanAux_eq_none_iff]
      constructor
      · intro h j hj h2
        obtain ⟨j2, rfl⟩ := Nat.exists_eq_add_of_le hj
        rw [Nat.add_comm] at h2 ⊢
        simp only [List.take_succ_cons, List.all_cons, Bool.and_eq_true] at h2
        have h5 := h j2 h2.2
        simpa using h5
      · intro h k hk
        have h5 := h (k + 1) (by omega) (by
          simp only [List.take_succ_cons, List.all_cons, Bool.and_eq_true]
          exact ⟨by simpa using hc, hk⟩)
        simpa using h5

theorem all_take_mono {s : List Char} {p : Char → Bool} {i j : Nat} (hij : i ≤ j)
    (h : (s.take j).all p = true) : (s.take i).all p = true := by
  rw [List.all_eq_true] at h ⊢
  intro x hx
  apply h
  have : s.take i = (s.take j).take i := by
    rw [List.take_take, Nat.min_eq_left hij]
  rw [this] at hx
  exact List.take_subset _ _ hx

theorem scanYear_some_occ (s c y : List Char) :
    scanYear s = some (c, y) ↔
      ∃ j, OccYear s j ∧ (∀ i < j, ¬ OccYear s i) ∧ c = s.take j ∧
        tailYear (s.drop j) = some y := by
  rw [scanYear, scanWith_eq_some_iff tailYear tailYear_nil]
  constructor
  · rintro ⟨j, hj, h1, h2, h3, h4⟩
    refine ⟨j, ⟨hj, h2, by simp [h3]⟩, ?_, h1, h3⟩
    intro i hi hocc
    obtain ⟨hi1, hi2, hi3⟩ := hocc
    have h5 := h4 i hi1 hi
    rw [h5] at hi3
    simp at hi3
  · rintro ⟨j, ⟨hj1, hj2, hj3⟩, hmin, h1, h3⟩
    refine ⟨j, hj1, h1, hj2, h3, ?_⟩
    intro i hi1 hi2
    by_contra hne
    have hocc : OccYear s i :=
      ⟨hi1, all_take_mono (Nat.le_of_lt hi2) hj2, by
        cases h5 : tailYear (s.drop i) with
        | some y2 => simp
        | none => exact absurd h5 hne⟩
    exact hmin i hi2 hocc

theorem scanYear_none_occ (s : List Char) :
    scanYear s = none ↔ ∀ j, ¬ OccYear s j := by
  rw [scanYear, scanWith_eq_none_iff tailYear tailYear_nil]
  constructor
  · intro h j hocc
    obtain ⟨h1, h2, h3⟩ := hocc
    have h5 := h j h1 h2
    rw [h5] at h3
    simp at h3
  · intro h j hj1 hj2
    cases h5 : tailYear (s.drop j) with
    | none => rfl
    | some y2 =>
      exact absurd ⟨hj1, hj2, by simp [h5]⟩ (h j)

theorem scanTrunc_some_occ (s c m : List Char) :
    scanTrunc s = some (c, m) ↔
      ∃ j, OccTrunc s j ∧ (∀ i < j, ¬ OccTrunc s i) ∧ c = s.take j ∧
        tailTrunc (s.drop j) = some m := by
  rw [scanTrunc, scanWith_eq_some_iff tailTrunc tailTrunc_nil]
  constructor
  · rintro ⟨j, hj, h1, h2, h3, h4⟩
    refine ⟨j, ⟨hj, h2, by simp [h3]⟩, ?_, h1, h3⟩
    intro i hi hocc
    obtain ⟨hi1, hi2, hi3⟩ := hocc
    have h5 := h4 i hi1 hi
    rw [h5] at hi3
    simp at hi3
  · rintro ⟨j, ⟨hj1, hj2, hj3⟩, hmin, h1, h3⟩
    refine ⟨j, hj1, h1, hj2, h3, ?_⟩
    intro i hi1 hi2
    by_contra hne
    have hocc : OccTrunc s i :=
      ⟨hi1, all_take_mono (Nat.le_of_lt hi2) hj2, by
        cases h5 : tailTrunc (s.drop i) with
        | some y2 => simp
        | none => exact absurd h5 hne⟩
    exact hmin i hi2 hocc

theorem scanTrunc_none_occ (s : List Char) :
    scanTrunc s = none ↔ ∀ j, ¬ OccTrunc s j := by
  rw [scanTrunc, scanWith_eq_none_iff tailTrunc tailTrunc_nil]
  constructor
  · intro h j hocc
    obtain ⟨h1, h2, h3⟩ := hocc
    have h5 := h j h1 h2
    rw [h5] at h3
    simp at h3
  · intro h j hj1 hj2
    cases h5 : tailTrunc (s.drop j) with
    | none => rfl
    | some y2 =>
      exact absurd ⟨hj1, hj2, by simp [h5]⟩ (h j)


theorem extract_of_scanYear_some {x : String} {c y : List Char}
    (h : scanYear (repairedStem x) = some (c, y)) :
    extract_title_year x =
      (if cleanTitle c = [] then none
       else some (String.mk (cleanTitle c), String.mk y)) := by
  unfold extract_title_year extract_title_year_w
  simp only [h]

theorem extract_of_scanTrunc_some {x : String} {c m : List Char}
    (hy : scanYear (repairedStem x) = none)
    (ht : scanTrunc (repairedStem x) = some (c, m)) :
    extract_title_year x =
      (if cleanTitle c = [] then none
       else some (String.mk (cleanTitle c),
         if m = ['1', '9'] then "1999" else "2020")) ∧
    (extract_title_year_w x).2 =
      ["    Found truncated year (" ++ String.mk m ++ ") - using "
        ++ (if m = ['1', '9'] then "1999" else "2020") ++ " as default"] := by
  unfold extract_title_year extract_title_year_w
  simp only [hy, ht]
  constructor
  · by_cases hc : m = ['1', '9'] <;> simp [hc]
  · by_cases hc : m = ['1', '9'] <;> simp [hc]

theorem extract_of_scan_none {x : String}
    (hy : scanYear (repairedStem x) = none)
    (ht : scanTrunc (repairedStem x) = none) :
    extract_title_year x = none := by
  unfold extract_title_year extract_title_year_w
  simp only [hy, ht]

theorem occYear_le_length {s : List Char} {j : Nat} (h : OccYear s j) :
    j ≤ s.length := by
  obtain ⟨-, -, h3⟩ := h
  by_contra hgt
  rw [List.drop_eq_nil_of_le (by omega)] at h3
  rw [tailYear_nil] at h3
  simp at h3

theorem least_unique {P : Nat → Prop} {a b : Nat} (ha : P a) (hma : ∀ i < a, ¬ P i)
    (hb : P b) (hmb : ∀ i < b, ¬ P i) : a = b := by
  by_contra hne
  rcases Nat.lt_or_ge a b with h | h
  · exact hmb a h ha
  · exact hma b (by omega) hb


theorem lexLe_trans {a b c : List Char} (h1 : lexLe a b = true)
    (h2 : lexLe b c = true) : lexLe a c = true := by
  induction a generalizing b c with
  | nil => simp [lexLe]
  | cons x xs ih =>
    cases b with
    | nil => simp [lexLe] at h1
    | cons y ys =>
      cases c with
      | nil => simp [lexLe] at h2
      | cons z zs =>
        simp only [lexLe] at h1 h2 ⊢
        by_cases hxy : x = y
        · subst hxy
          rw [if_pos rfl] at h1
          by_cases hyz : x = z
          · subst hyz
            rw [if_pos rfl] at h2
            rw [if_pos rfl]
            exact ih h1 h2
          · rw [if_neg hyz] at h2
            rw [if_neg hyz]
            exact h2
        · rw [if_neg hxy] at h1
          by_cases hyz : y = z
          · subst hyz
            rw [if_neg hxy]
            exact h1
          · rw [if_neg hyz] at h2
            have hlt : x < z := lt_trans (of_decide_eq_true h1) (of_decide_eq_true h2)
            rw [if_neg (ne_of_lt hlt)]
            exact decide_eq_true hlt
  
theorem lexLe_total (a b : List Char) : (lexLe a b || lexLe b a) = true := by
  induction a generalizing b with
  | nil => simp [lexLe]
  | cons x xs ih =>
    cases b with
    | nil => simp [lexLe]
    | cons y ys =>
      simp only [lexLe]
      by_cases hxy : x = y
      · subst hxy
        rw [if_pos rfl, if_pos rfl]
        exact ih ys
      · rw [if_neg hxy, if_neg (Ne.symm hxy)]
        rcases lt_or_gt_of_ne hxy with h | h
        · simp [h]
        · simp [h]

theorem itemLe_trans (a b c : String × Bool) (h1 : itemLe a b = true)
    (h2 : itemLe b c = true) : itemLe a c = true := by
  unfold itemLe at h1 h2 ⊢
  by_cases hab : a.2 = b.2
  · rw [if_pos hab] at h1
    by_cases hbc : b.2 = c.2
    · rw [if_pos hbc] at h2
      rw [if_pos (hab.trans hbc)]
      exact lexLe_trans h1 h2
    · rw [if_neg hbc] at h2
      rw [hab, if_neg hbc]
      exact h2
  · rw [if_neg hab] at h1
    simp only [Bool.and_eq_true, Bool.not_eq_true'] at h1
    by_cases hbc : b.2 = c.2
    · rw [if_neg (fun hac => hab (hac.trans hbc.symm))]
      simp only [Bool.and_eq_true, Bool.not_eq_true']
      exact ⟨h1.1, hbc ▸ h1.2⟩
    · rw [if_neg hbc] at h2
      simp only [Bool.and_eq_true, Bool.not_eq_true'] at h2
      rw [h1.2] at h2
      simp at h2
  
theorem itemLe_total (a b : String × Bool) : (itemLe a b || itemLe b a) = true := by
  unfold itemLe
  by_cases hab : a.2 = b.2
  · rw [if_pos hab, if_pos hab.symm]
    exact lexLe_total _ _
  · rw [if_neg hab, if_neg (Ne.symm hab)]
    cases ha : a.2 <;> cases hb : b.2 <;> simp_all

theorem childOrder_of_itemLe {a b : String × Bool} (h : itemLe a b = true) :
    childOrder a b := by
  unfold itemLe at h
  by_cases hab : a.2 = b.2
  · rw [if_pos hab] at h
    exact Or.inr ⟨hab, h⟩
  · rw [if_neg hab] at h
    simp only [Bool.and_eq_true, Bool.not_eq_true'] at h
    exact Or.inl ⟨h.1, h.2⟩


theorem remove_unwanted_aux_spec (pre : String) (l : Listing) :
    filesOf pre (remove_unwanted_aux pre l).1 =
      (filesOf pre l).filter
        (fun e => !(unwanted_extensions.contains (suffixLower e.2.1))) ∧
    (remove_unwanted_aux pre l).2 =
      ((filesOf pre l).filter
        (fun e => unwanted_extensions.contains (suffixLower e.2.1))).map
        (fun e => e.1 ++ e.2.1) := by
  induction pre, l using remove_unwanted_aux.induct with
  | case1 pre => simp [remove_unwanted_aux, filesOf]
  | case2 pre n c rest r d heq hu ih =>
    rw [heq] at ih
    obtain ⟨ih1, ih2⟩ := ih
    simp only at ih1 ih2
    have hu2 : suffixLower n ∈ unwanted_extensions := by simpa using hu
    simp [remove_unwanted_aux, heq, hu2, filesOf, List.filter_cons, ih1, ih2]
  | case3 pre n c rest r d heq hu ih =>
    rw [heq] at ih
    obtain ⟨ih1, ih2⟩ := ih
    simp only at ih1 ih2
    have hu2 : ¬ suffixLower n ∈ unwanted_extensions := by simpa using hu
    simp [remove_unwanted_aux, heq, hu2, filesOf, List.filter_cons, ih1, ih2]
  | case4 pre n kids rest rk dk heqk rr dr heqr ihk ihr =>
    rw [heqk] at ihk
    rw [heqr] at ihr
    obtain ⟨ihk1, ihk2⟩ := ihk
    simp only at ihk1 ihk2
    obtain ⟨ihr1, ihr2⟩ := ihr
    simp only at ihr1 ihr2
    simp [remove_unwanted_aux, heqk, heqr, filesOf, List.filter_append,
      ihk1, ihk2, ihr1, ihr2]

/-! ## Properties of the title cleanup -/

mutual
theorem dotsToSpace_chars : ∀ (l : List Char), ∀ c ∈ dotsToSpace l, isDotUnd c = false
  | [] => by simp [dotsToSpace]
  | c0 :: r => by
    by_cases h : isDotUnd c0
    · simp only [dotsToSpace, if_pos h]
      intro c hc
      rcases List.mem_cons.mp hc with rfl | hc2
      · decide
      · exact dotsRun_chars r c hc2
    · simp only [dotsToSpace, if_neg h]
      intro c hc
      rcases List.mem_cons.mp hc with rfl | hc2
      · simpa using h
      · exact dotsToSpace_chars r c hc2

theorem dotsRun_chars : ∀ (l : List Char), ∀ c ∈ dotsRun l, isDotUnd c = false
  | [] => by simp [dotsRun]
  | c0 :: r => by
    by_cases h : isDotUnd c0
    · simp only [dotsRun, if_pos h]
      exact dotsRun_chars r
    · simp only [dotsRun, if_neg h]
      intro c hc
      rcases List.mem_cons.mp hc with rfl | hc2
      · simpa using h
      · exact dotsToSpace_chars r c hc2
end

mutual
theorem collapseWs_chars : ∀ (l : List Char), ∀ c ∈ collapseWs l, c = ' ' ∨ c ∈ l
  | [] => by simp [collapseWs]
  | c0 :: r => by
    by_cases h : isSpaceCh c0
    · simp only [collapseWs, if_pos h]
      intro c hc
      rcases List.mem_cons.mp hc with rfl | hc2
      · exact Or.inl rfl
      · rcases wsRun_chars r c hc2 with h2 | h2
        · exact Or.inl h2
        · exact Or.inr (List.mem_cons_of_mem _ h2)
    · simp only [collapseWs, if_neg h]
      intro c hc
      rcases List.mem_cons.mp hc with rfl | hc2
      · exact Or.inr (List.mem_cons_self _ _)
      · rcases collapseWs_chars r c hc2 with h2 | h2
        · exact Or.inl h2
        · exact Or.inr (List.mem_cons_of_mem _ h2)

theorem wsRun_chars : ∀ (l : List Char), ∀ c ∈ wsRun l, c = ' ' ∨ c ∈ l
  | [] => by simp [wsRun]
  | c0 :: r => by
    by_cases h : isSpaceCh c0
    · simp only [wsRun, if_pos h]
      intro c hc
      rcases wsRun_chars r c hc with h2 | h2
      · exact Or.inl h2
      · exact Or.inr (List.mem_cons_of_mem _ h2)
    · simp only [wsRun, if_neg h]
      intro c hc
      rcases List.mem_cons.mp hc with rfl | hc2
      · exact Or.inr (List.mem_cons_self _ _)
      · rcases collapseWs_chars r c hc2 with h2 | h2
        · exact Or.inl h2
        · exact Or.inr (List.mem_cons_of_mem _ h2)
end

mutual
theorem collapseWs_ws : ∀ (l : List Char), ∀ c ∈ collapseWs l,
    isSpaceCh c = true → c = ' '
  | [] => by simp [collapseWs]
  | c0 :: r => by
    by_cases h : isSpaceCh c0
    · simp only [collapseWs, if_pos h]
      intro c hc hsp
      rcases List.mem_cons.mp hc with rfl | hc2
      · rfl
      · exact wsRun_ws r c hc2 hsp
    · simp only [collapseWs, if_neg h]
      intro c hc hsp
      rcases List.mem_cons.mp hc with rfl | hc2
      · exact absurd hsp (by simpa using h)
      · exact collapseWs_ws r c hc2 hsp

theorem wsRun_ws : ∀ (l : List Char), ∀ c ∈ wsRun l, isSpaceCh c = true → c = ' '
  | [] => by simp [wsRun]
  | c0 :: r => by
    by_cases h : isSpaceCh c0
    · simp only [wsRun, if_pos h]
      exact wsRun_ws r
    · simp only [wsRun, if_neg h]
      intro c hc hsp
      rcases List.mem_cons.mp hc with rfl | hc2
      · exact absurd hsp (by simpa using h)
      · exact collapseWs_ws r c hc2 hsp
end

theorem subNPatF_subset (p : NPat) : ∀ (fuel : Nat) (l : List Char),
    ∀ c ∈ subNPatF p fuel l, c ∈ l
  | 0, l => by simp [subNPatF]
  | fuel + 1, l => by
    cases l with
    | nil => simp [subNPatF]
    | cons c0 r =>
      simp only [subNPatF]
      cases h : npatLen p (c0 :: r) with
      | some n =>
        intro c hc
        exact List.drop_subset _ _ (subNPatF_subset p fuel _ c hc)
      | none =>
        intro c hc
        rcases List.mem_cons.mp hc with rfl | hc2
        · exact List.mem_cons_self _ _
        · exact List.mem_cons_of_mem _ (subNPatF_subset p fuel r c hc2)

theorem subNPat_subset (p : NPat) (l : List Char) : ∀ c ∈ subNPat p l, c ∈ l :=
  subNPatF_subset p (l.length + 1) l

theorem foldl_subNPat_subset : ∀ (ps : List NPat) (l : List Char),
    ∀ c ∈ ps.foldl (fun acc p => subNPat p acc) l, c ∈ l
  | [], l => by simp
  | p :: ps, l => by
    intro c hc
    exact subNPat_subset p l c (foldl_subNPat_subset ps (subNPat p l) c hc)

theorem noiseSub_subset (l : List Char) : ∀ c ∈ noiseSub l, c ∈ l :=
  foldl_subNPat_subset release_patterns l

theorem dropEndWhile_subset (p : Char → Bool) (l : List Char) :
    ∀ c ∈ dropEndWhile p l, c ∈ l := by
  intro c hc
  unfold dropEndWhile at hc
  rw [List.mem_reverse] at hc
  have h2 := (List.dropWhile_sublist p (l := l.reverse)).subset hc
  rwa [List.mem_reverse] at h2

theorem stripWs_subset (l : List Char) : ∀ c ∈ stripWs l, c ∈ l := by
  intro c hc
  unfold stripWs at hc
  have h2 := dropEndWhile_subset _ _ c hc
  exact (List.dropWhile_sublist _).subset h2

theorem stripSet_subset (l : List Char) : ∀ c ∈ stripSet l, c ∈ l := by
  intro c hc
  unfold stripSet at hc
  have h2 := dropEndWhile_subset _ _ c hc
  exact (List.dropWhile_sublist _).subset h2

theorem cleanTitle_mem_collapse {l : List Char} {c : Char}
    (hc : c ∈ cleanTitle l) :
    c ∈ collapseWs (dotsToSpace (noiseSub (stripWs l))) := by
  unfold cleanTitle at hc
  have h2 := stripWs_subset _ c (stripSet_subset _ c hc)
  exact h2

theorem cleanTitle_no_dotund {l : List Char} : ∀ c ∈ cleanTitle l,
    isDotUnd c = false := by
  intro c hc
  have h2 := cleanTitle_mem_collapse hc
  rcases collapseWs_chars _ c h2 with rfl | h3
  · decide
  · exact dotsToSpace_chars _ c h3

theorem cleanTitle_ws_space {l : List Char} : ∀ c ∈ cleanTitle l,
    isSpaceCh c = true → c = ' ' := by
  intro c hc
  exact collapseWs_ws _ c (cleanTitle_mem_collapse hc)

theorem dropEndWhile_getLast (p : Char → Bool) (l : List Char)
    (h : dropEndWhile p l ≠ []) :
    p ((dropEndWhile p l).getLast h) = false := by
  unfold dropEndWhile at h ⊢
  have hne : l.reverse.dropWhile p ≠ [] := by
    intro h2
    rw [h2] at h
    simp at h
  have h1 : (l.reverse.dropWhile p).reverse.getLast? =
      (l.reverse.dropWhile p).head? := List.getLast?_reverse _
  rw [List.getLast?_eq_getLast _ h, List.head?_eq_head hne] at h1
  have h2 := List.head_dropWhile_not p l.reverse hne
  rw [← Option.some_inj.mp h1] at h2
  exact h2

theorem cleanTitle_getLast {l : List Char} (h : cleanTitle l ≠ []) :
    inStripSet ((cleanTitle l).getLast h) = false := by
  unfold cleanTitle at h ⊢
  unfold stripSet at h ⊢
  exact dropEndWhile_getLast _ _ h


theorem tailYear_shape {l y : List Char} (h : tailYear l = some y) :
    yearShape y = true := by
  unfold tailYear at h
  split at h
  · split at h
    · split at h
      · split at h
        · rename_i hcond
          split at h
          · split at h
            · split at h
              · injection h with hy
                subst hy
                simpa [yearShape] using hcond
              · cases h
            · cases h
          · cases h
        · cases h
      · cases h
    · cases h
  · cases h

set_option maxHeartbeats 1000000 in
theorem extract_some_parts {x : String} {t y : String}
    (h : extract_title_year x = some (t, y)) :
    (∃ c, t.data = cleanTitle c ∧ t.data ≠ []) ∧ yearShape y.data = true := by
  unfold extract_title_year extract_title_year_w at h
  cases hy : scanYear (repairedStem x) with
  | some p =>
    obtain ⟨c, y0⟩ := p
    simp only [hy] at h
    split at h
    · cases h
    · rename_i hne
      injection h with h2
      injection h2 with h3 h4
      subst h3
      subst h4
      refine ⟨⟨c, rfl, hne⟩, ?_⟩
      obtain ⟨j, hocc, hmin, hc, hty⟩ := (scanYear_some_occ _ _ _).mp hy
      exact tailYear_shape hty
  | none =>
    simp only [hy] at h
    cases ht : scanTrunc (repairedStem x) with
    | some p =>
      obtain ⟨c, m⟩ := p
      simp only [ht] at h
      split at h
      · cases h
      · rename_i hne
        injection h with h2
        injection h2 with h3 h4
        subst h3
        refine ⟨⟨c, rfl, hne⟩, ?_⟩
        by_cases hm : m = ['1', '9']
        · rw [hm] at h4
          simp only [if_pos rfl] at h4
          subst h4
          decide
        · rw [if_neg hm] at h4
          subst h4
          decide
    | none =>
      simp only [ht] at h
      cases h

theorem yearShape_chars {y : List Char} (h : yearShape y = true) :
    ∀ c ∈ y, c.isDigit = true := by
  unfold yearShape at h
  split at h
  · rename_i c1 c2 d1 d2
    simp only [Bool.and_eq_true, Bool.or_eq_true, decide_eq_true_eq] at h
    obtain ⟨⟨h12, hd1⟩, hd2⟩ := h
    intro c hc
    simp only [List.mem_cons, List.not_mem_nil, or_false] at hc
    rcases hc with rfl | rfl | rfl | rfl
    · rcases h12 with ⟨rfl, -⟩ | ⟨rfl, -⟩ <;> decide
    · rcases h12 with ⟨-, rfl⟩ | ⟨-, rfl⟩ <;> decide
    · exact hd1
    · exact hd2
  · cases h

theorem isDigit_facts {c : Char} (h : c.isDigit = true) :
    c ≠ '.' ∧ c ≠ '/' ∧ c ≠ '(' ∧ c ≠ ')' ∧ isSpaceCh c = false ∧ c ≠ '\n' := by
  have hne : ∀ d : Char, d.isDigit = false → c ≠ d := by
    intro d hd heq
    rw [heq, hd] at h
    cases h
  refine ⟨hne '.' (by decide), hne '/' (by decide), hne '(' (by decide),
    hne ')' (by decide), ?_, hne '\n' (by decide)⟩
  unfold isSpaceCh
  have h1 := hne ' ' (by decide)
  have h2 := hne '\t' (by decide)
  have h3 := hne '\n' (by decide)
  have h4 := hne '\r' (by decide)
  have h5 := hne '\x0b' (by decide)
  have h6 := hne '\x0c' (by decide)
  simp [h1, h2, h3, h4, h5, h6]

theorem count_skipSp_le (c : Char) (hc : isSpaceCh c = false) (l : List Char) :
    l.count c = (skipSp l).count c := by
  conv_lhs => rw [← List.takeWhile_append_dropWhile isSpaceCh l]
  rw [List.count_append]
  have h2 : (l.takeWhile isSpaceCh).count c = 0 := by
    rw [List.count_eq_zero]
    intro hmem
    have h3 := List.mem_takeWhile_imp hmem
    rw [hc] at h3
    cases h3
  unfold skipSp
  omega

theorem dblOpenRest_two_parens {l r : List Char} (h : dblOpenRest l = some r) :
    2 ≤ l.count '(' := by
  unfold dblOpenRest at h
  split at h
  · rename_i c1 r1 h1
    split at h
    · rename_i hc1
      subst hc1
      split at h
      · rename_i x2 c2 r2 h2
        split at h
        · rename_i hc2
          subst hc2
          have e1 := count_skipSp_le '(' (by decide) l
          have e2 := count_skipSp_le '(' (by decide) r1
          rw [h1] at e1
          rw [h2] at e2
          simp only [List.count_cons_self] at e1 e2
          omega
        · cases h
      · cases h
    · cases h
  · cases h

theorem dblCloseRest_two_parens {l r : List Char} (h : dblCloseRest l = some r) :
    2 ≤ l.count ')' := by
  unfold dblCloseRest at h
  split at h
  · rename_i c1 r1 h1
    split at h
    · rename_i hc1
      subst hc1
      split at h
      · rename_i x2 c2 r2 h2
        split at h
        · rename_i hc2
          subst hc2
          have e1 := count_skipSp_le ')' (by decide) l
          have e2 := count_skipSp_le ')' (by decide) r1
          rw [h1] at e1
          rw [h2] at e2
          simp only [List.count_cons_self] at e1 e2
          omega
        · cases h
      · cases h
    · cases h
  · cases h

theorem subDblOpenF_id : ∀ (fuel : Nat) (l : List Char), l.count '(' < 2 →
    subDblOpenF fuel l = l
  | 0, l => by intro h; rfl
  | fuel + 1, l => by
    intro h
    simp only [subDblOpenF]
    cases hrest : dblOpenRest l with
    | some r => exact absurd (dblOpenRest_two_parens hrest) (by omega)
    | none =>
      cases l with
      | nil => rfl
      | cons c0 r =>
        show c0 :: subDblOpenF fuel r = c0 :: r
        have h2 : r.count '(' < 2 := by
          rw [List.count_cons] at h
          omega
        rw [subDblOpenF_id fuel r h2]

theorem subDblCloseF_id : ∀ (fuel : Nat) (l : List Char), l.count ')' < 2 →
    subDblCloseF fuel l = l
  | 0, l => by intro h; rfl
  | fuel + 1, l => by
    intro h
    simp only [subDblCloseF]
    cases hrest : dblCloseRest l with
    | some r => exact absurd (dblCloseRest_two_parens hrest) (by omega)
    | none =>
      cases l with
      | nil => rfl
      | cons c0 r =>
        show c0 :: subDblCloseF fuel r = c0 :: r
        have h2 : r.count ')' < 2 := by
          rw [List.count_cons] at h
          omega
        rw [subDblCloseF_id fuel r h2]

theorem splitSlash_no_slash : ∀ (acc l : List Char), '/' ∉ l →
    splitSlash acc l = [acc.reverse ++ l]
  | acc, [] => by simp [splitSlash]
  | acc, c :: r => by
    intro h
    simp only [List.mem_cons, not_or] at h
    simp only [splitSlash, if_neg (Ne.symm h.1)]
    rw [splitSlash_no_slash (c :: acc) r h.2]
    simp

theorem pyName_of_no_slash {s : String} (h : '/' ∉ s.data) (h1 : s.data ≠ [])
    (h2 : s.data ≠ ['.']) : pyName s = s := by
  unfold pyName
  rw [splitSlash_no_slash [] s.data h]
  have hcond : (s.data.isEmpty || decide (s.data = ['.'])) = false := by
    simp only [Bool.or_eq_false_iff, decide_eq_false_iff_not]
    exact ⟨by simpa [List.isEmpty_iff] using h1, h2⟩
  simp only [List.reverse_nil, List.nil_append, List.filter_cons, hcond,
    Bool.not_false, if_true, List.filter_nil, List.getLastD]
  simp [List.getLast]

theorem pyStem_no_dot {s : String} (hn : pyName s = s) (h : '.' ∉ s.data) :
    pyStem s = s := by
  have hfind : List.findIdx? (fun x => decide (x = '.')) s.data.reverse = none := by
    rw [List.findIdx?_eq_none_iff]
    intro x hx
    rw [List.mem_reverse] at hx
    simp only [decide_eq_false_iff_not]
    intro heq
    exact h (heq ▸ hx)
  unfold pyStem lastDotIdx
  rw [hn]
  simp only [hfind]

theorem mem_of_getLast?_eq {l : List Char} {a : Char} (h : l.getLast? = some a) :
    a ∈ l := by
  cases l with
  | nil => cases h
  | cons c r =>
    have hne : (c :: r) ≠ [] := by simp
    rw [List.getLast?_eq_getLast _ hne] at h
    injection h with h2
    rw [← h2]
    exact List.getLast_mem hne

theorem getLast_mem_drop {l : List Char} {j : Nat} (hj : j < l.length)
    (h : l ≠ []) : l.getLast h ∈ l.drop j := by
  have hd : l.drop j ≠ [] := by
    intro h2
    have h3 := List.length_drop j l
    rw [h2] at h3
    simp only [List.length_nil] at h3
    omega
  have h4 : l.getLast? = (l.drop j).getLast? := by
    conv_lhs => rw [← List.take_append_drop j l]
    rw [List.getLast?_append]
    rw [List.getLast?_eq_getLast _ hd]
    simp [Option.or]
  rw [List.getLast?_eq_getLast _ h, List.getLast?_eq_getLast _ hd] at h4
  injection h4 with h5
  rw [h5]
  exact List.getLast_mem hd

theorem dropWhile_ne_nil_of_mem {p : Char → Bool} {a : List Char} {x : Char}
    (hx : x ∈ a) (hpx : p x = false) : a.dropWhile p ≠ [] := by
  induction a with
  | nil => cases hx
  | cons c r ih =>
    by_cases hp : p c
    · rw [List.dropWhile_cons_of_pos hp]
      rcases List.mem_cons.mp hx with rfl | h2
      · rw [hp] at hpx
        cases hpx
      · exact ih h2
    · rw [List.dropWhile_cons_of_neg hp]
      simp

theorem skipSp_append_left {a b : List Char} (h : a.dropWhile isSpaceCh ≠ []) :
    skipSp (a ++ b) = a.dropWhile isSpaceCh ++ b := by
  unfold skipSp
  rw [List.dropWhile_append]
  rw [if_neg (by simpa [List.isEmpty_iff] using h)]

theorem tailYear_none_head {l : List Char} {c : Char} {r : List Char}
    (h : skipSp l = c :: r) (hc : c ≠ '(') : tailYear l = none := by
  unfold tailYear
  rw [h]
  simp [hc]

theorem tailYear_format {y : List Char} (hy : yearShape y = true) :
    tailYear (' ' :: '(' :: (y ++ [')'])) = some y := by
  unfold yearShape at hy
  split at hy
  · rename_i c1 c2 d1 d2
    simp only [Bool.and_eq_true, Bool.or_eq_true, decide_eq_true_eq] at hy
    obtain ⟨⟨h12, hd1⟩, hd2⟩ := hy
    rcases h12 with ⟨rfl, rfl⟩ | ⟨rfl, rfl⟩ <;>
      simp [tailYear, skipSp, List.dropWhile, isSpaceCh, hd1, hd2, dotStarEnd]
  · cases hy


theorem dropWhile_head_false {p : Char → Bool} {l : List Char} {hd : Char}
    {tl : List Char} (h : l.dropWhile p = hd :: tl) : p hd = false := by
  induction l with
  | nil => cases h
  | cons c r ih =>
    by_cases hp : p c
    · rw [List.dropWhile_cons_of_pos hp] at h
      exact ih h
    · rw [List.dropWhile_cons_of_neg hp] at h
      injection h with h1 h2
      rw [h1] at hp
      simpa using hp



/-! ## Frame lemmas for the directory walk (C10) -/

theorem findIdx?_some_split {p : Char → Bool} {l : List Char} {k : Nat}
    (h : List.findIdx? p l = some k) :
    ∃ hk : k < l.length, p (l.get ⟨k, hk⟩) = true ∧ ∀ x ∈ l.take k, p x = false := by
  rw [List.findIdx?_eq_some_iff_findIdx_eq] at h
  obtain ⟨hk, hfi⟩ := h
  refine ⟨hk, ?_, ?_⟩
  · have := List.findIdx_getElem (w := hfi ▸ hk)
    simpa [hfi] using this
  · intro x hx
    rw [List.mem_iff_getElem] at hx
    obtain ⟨i, hi, hxe⟩ := hx
    rw [List.length_take] at hi
    have hik : i < k := lt_of_lt_of_le hi inf_le_left
    have hnp := @List.not_of_lt_findIdx _ p l i (hfi ▸ hik)
    rw [← hxe]
    simp only [List.getElem_take]
    simpa using hnp

theorem pySuffix_shape (m : String) :
    pySuffix m = "" ∨
    ∃ e, (pySuffix m).data = '.' :: e ∧ '.' ∉ e ∧ e ≠ [] := by
  unfold pySuffix lastDotIdx
  cases hf : (pyName m).data.reverse.findIdx? (fun x => decide (x = '.')) with
  | none => exact Or.inl rfl
  | some k =>
    simp only
    by_cases hcond : (decide (0 < (pyName m).data.length - 1 - k) &&
        decide ((pyName m).data.length - 1 - k < (pyName m).data.length - 1)) = true
    · rw [if_pos hcond]
      right
      simp only [Bool.and_eq_true, decide_eq_true_eq] at hcond
      obtain ⟨hk, hpk, htake⟩ := findIdx?_some_split hf
      rw [List.length_reverse] at hk
      have hdrop : (pyName m).data.drop ((pyName m).data.length - 1 - k) =
          ((pyName m).data.reverse.take (k + 1)).reverse := by
        rw [← List.reverse_reverse ((pyName m).data.drop ((pyName m).data.length - 1 - k))]
        rw [List.reverse_drop]
        have he : (pyName m).data.length - ((pyName m).data.length - 1 - k) = k + 1 := by
          omega
        rw [he]
      have hkb : k < (pyName m).data.reverse.length := by
        rw [List.length_reverse]
        exact hk
      have htk : (pyName m).data.reverse.take (k + 1) =
          (pyName m).data.reverse.take k ++ ['.'] := by
        rw [List.take_succ]
        rw [List.getElem?_eq_getElem hkb]
        have hpk2 : (pyName m).data.reverse[k] = '.' := by
          have := hpk
          simp only [List.get_eq_getElem, decide_eq_true_eq] at this
          exact this
        rw [hpk2]
        rfl
      refine ⟨((pyName m).data.reverse.take k).reverse, ?_, ?_, ?_⟩
      · show ((pyName m).data.drop ((pyName m).data.length - 1 - k)) = _
        rw [hdrop, htk]
        simp
      · intro hmem
        rw [List.mem_reverse] at hmem
        have h2 := htake _ hmem
        simp at h2
      · have hkpos : 0 < k := by omega
        intro heq
        have h2 := congrArg List.length heq
        rw [List.length_reverse, List.length_take, List.length_reverse] at h2
        simp only [List.length_nil] at h2
        omega
    · rw [if_neg hcond]
      exact Or.inl rfl

theorem pySuffix_append {A e : List Char}
    (hA : '.' ∉ A) (hAne : A ≠ []) (he : '.' ∉ e) (hene : e ≠ [])
    (hs : '/' ∉ A ++ '.' :: e) :
    pySuffix (String.mk (A ++ '.' :: e)) = String.mk ('.' :: e) := by
  have hname : pyName (String.mk (A ++ '.' :: e)) = String.mk (A ++ '.' :: e) := by
    apply pyName_of_no_slash
    · exact hs
    · simp
    · intro heq
      have h2 := congrArg List.length heq
      simp only [List.length_append, List.length_cons, List.length_nil] at h2
      cases A with
      | nil => exact hAne rfl
      | cons a r => simp at h2; omega
  have hrev : (A ++ '.' :: e).reverse = e.reverse ++ '.' :: A.reverse := by
    rw [List.reverse_append, List.reverse_cons]
    simp
  have hfe : List.findIdx? (fun x => decide (x = '.')) e.reverse = none := by
    rw [List.findIdx?_eq_none_iff]
    intro x hx
    rw [List.mem_reverse] at hx
    simp only [decide_eq_false_iff_not]
    intro heq
    exact he (heq ▸ hx)
  have hfi : List.findIdx? (fun x => decide (x = '.')) (A ++ '.' :: e).reverse =
      some e.reverse.length := by
    rw [hrev, List.findIdx?_append, hfe]
    rw [List.findIdx?_cons]
    rw [if_pos (by decide)]
    simp
  unfold pySuffix lastDotIdx
  rw [hname]
  have hdm : (String.mk (A ++ '.' :: e)).data = A ++ '.' :: e := rfl
  rw [hdm, hfi]
  simp only
  have hi : (A ++ '.' :: e).length - 1 - e.reverse.length = A.length := by
    rw [List.length_reverse]
    simp only [List.length_append, List.length_cons]
    omega
  rw [hi]
  have hAlen : 0 < A.length := List.length_pos.mpr hAne
  have helen : 0 < e.length := List.length_pos.mpr hene
  rw [if_pos (by
    simp only [Bool.and_eq_true, decide_eq_true_eq, List.length_append,
      List.length_cons]
    omega)]
  rw [List.drop_left]

mutual
theorem dotsToSpace_mem : ∀ (l : List Char), ∀ c ∈ dotsToSpace l, c = ' ' ∨ c ∈ l
  | [] => by simp [dotsToSpace]
  | c0 :: r => by
    by_cases h : isDotUnd c0
    · simp only [dotsToSpace, if_pos h]
      intro c hc
      rcases List.mem_cons.mp hc with rfl | hc2
      · exact Or.inl rfl
      · rcases dotsRun_mem r c hc2 with h2 | h2
        · exact Or.inl h2
        · exact Or.inr (List.mem_cons_of_mem _ h2)
    · simp only [dotsToSpace, if_neg h]
      intro c hc
      rcases List.mem_cons.mp hc with rfl | hc2
      · exact Or.inr (List.mem_cons_self _ _)
      · rcases dotsToSpace_mem r c hc2 with h2 | h2
        · exact Or.inl h2
        · exact Or.inr (List.mem_cons_of_mem _ h2)

theorem dotsRun_mem : ∀ (l : List Char), ∀ c ∈ dotsRun l, c = ' ' ∨ c ∈ l
  | [] => by simp [dotsRun]
  | c0 :: r => by
    by_cases h : isDotUnd c0
    · simp only [dotsRun, if_pos h]
      intro c hc
      rcases dotsRun_mem r c hc with h2 | h2
      · exact Or.inl h2
      · exact Or.inr (List.mem_cons_of_mem _ h2)
    · simp only [dotsRun, if_neg h]
      intro c hc
      rcases List.mem_cons.mp hc with rfl | hc2
      · exact Or.inr (List.mem_cons_self _ _)
      · rcases dotsToSpace_mem r c hc2 with h2 | h2
        · exact Or.inl h2
        · exact Or.inr (List.mem_cons_of_mem _ h2)
end

theorem cleanTitle_chars {l : List Char} : ∀ c ∈ cleanTitle l, c = ' ' ∨ c ∈ l := by
  intro c hc
  have h2 := cleanTitle_mem_collapse hc
  rcases collapseWs_chars _ c h2 with rfl | h3
  · exact Or.inl rfl
  · rcases dotsToSpace_mem _ c h3 with h4 | h4
    · exact Or.inl h4
    · exact Or.inr (stripWs_subset _ c (noiseSub_subset _ c h4))

theorem splitSlash_chars : ∀ (acc l : List Char), ∀ comp ∈ splitSlash acc l,
    ∀ c ∈ comp, c ∈ acc ∨ c ∈ l
  | acc, [] => by
    intro comp hcomp c hc
    simp only [splitSlash, List.mem_singleton] at hcomp
    subst hcomp
    exact Or.inl (List.mem_reverse.mp hc)
  | acc, d :: r => by
    intro comp hcomp c hc
    simp only [splitSlash] at hcomp
    by_cases h : d = '/'
    · rw [if_pos h] at hcomp
      rcases List.mem_cons.mp hcomp with rfl | h2
      · exact Or.inl (List.mem_reverse.mp hc)
      · rcases splitSlash_chars [] r comp h2 c hc with h3 | h3
        · simp at h3
        · exact Or.inr (List.mem_cons_of_mem _ h3)
    · rw [if_neg h] at hcomp
      rcases splitSlash_chars (d :: acc) r comp hcomp c hc with h3 | h3
      · rcases List.mem_cons.mp h3 with rfl | h4
        · exact Or.inr (List.mem_cons_self _ _)
        · exact Or.inl h4
      · exact Or.inr (List.mem_cons_of_mem _ h3)

theorem pyName_chars (s : String) : ∀ c ∈ (pyName s).data, c ∈ s.data := by
  have hdef : (pyName s).data =
      ((splitSlash [] s.data).filter
        (fun c => !(c.isEmpty || c = ['.']))).getLastD [] := rfl
  intro c hc
  rw [hdef] at hc
  cases hcomps : (splitSlash [] s.data).filter
      (fun c => !(c.isEmpty || c = ['.'])) with
  | nil =>
    rw [hcomps] at hc
    simp at hc
  | cons a as =>
    rw [hcomps] at hc
    have hmem : (a :: as).getLastD [] ∈ a :: as := by
      rw [List.getLastD_cons]
      exact List.getLastD_mem_cons as a
    have hmem2 : (a :: as).getLastD [] ∈ (splitSlash [] s.data).filter
        (fun c => !(c.isEmpty || c = ['.'])) := by
      rw [hcomps]
      exact hmem
    have h2 := (List.mem_filter.mp hmem2).1
    rcases splitSlash_chars [] s.data _ h2 c hc with h3 | h3
    · simp at h3
    · exact h3

theorem pyStem_chars (s : String) : ∀ c ∈ (pyStem s).data, c ∈ (pyName s).data := by
  intro c hc
  unfold pyStem at hc
  split at hc
  · split at hc
    · exact List.take_subset _ _ hc
    · exact hc
  · exact hc

theorem pySuffix_chars (s : String) : ∀ c ∈ (pySuffix s).data, c ∈ s.data := by
  intro c hc
  unfold pySuffix at hc
  split at hc
  · split at hc
    · exact pyName_chars s c (List.drop_subset _ _ hc)
    · simp at hc
  · simp at hc

theorem skipSp_subset (l : List Char) : ∀ c ∈ skipSp l, c ∈ l :=
  fun _ hc => (List.dropWhile_sublist _).subset hc

theorem dblOpenRest_subset {l rest : List Char} (h : dblOpenRest l = some rest) :
    ∀ c ∈ rest, c ∈ l := by
  unfold dblOpenRest at h
  split at h
  · rename_i c1 r1 h1
    split at h
    · split at h
      · rename_i c2 r2 h2
        split at h
        · injection h with h3
          subst h3
          intro c hc
          have e1 : c ∈ r2 := skipSp_subset r2 c hc
          have e2 : c ∈ skipSp r1 := by rw [h2]; exact List.mem_cons_of_mem _ e1
          have e3 : c ∈ r1 := skipSp_subset r1 c e2
          have e4 : c ∈ skipSp l := by rw [h1]; exact List.mem_cons_of_mem _ e3
          exact skipSp_subset l c e4
        · cases h
      · cases h
    · cases h
  · cases h

theorem dblCloseRest_subset {l rest : List Char} (h : dblCloseRest l = some rest) :
    ∀ c ∈ rest, c ∈ l := by
  unfold dblCloseRest at h
  split at h
  · rename_i c1 r1 h1
    split at h
    · split at h
      · rename_i c2 r2 h2
        split at h
        · injection h with h3
          subst h3
          intro c hc
          have e1 : c ∈ r2 := skipSp_subset r2 c hc
          have e2 : c ∈ skipSp r1 := by rw [h2]; exact List.mem_cons_of_mem _ e1
          have e3 : c ∈ r1 := skipSp_subset r1 c e2
          have e4 : c ∈ skipSp l := by rw [h1]; exact List.mem_cons_of_mem _ e3
          exact skipSp_subset l c e4
        · cases h
      · cases h
    · cases h
  · cases h

theorem subDblOpenF_chars : ∀ (fuel : Nat) (l : List Char),
    ∀ c ∈ subDblOpenF fuel l, c = ' ' ∨ c = '(' ∨ c ∈ l
  | 0, l => by
    intro c hc
    exact Or.inr (Or.inr hc)
  | fuel + 1, l => by
    intro c hc
    simp only [subDblOpenF] at hc
    cases hro : dblOpenRest l with
    | some rest =>
      rw [hro] at hc
      rcases List.mem_cons.mp hc with rfl | hc2
      · exact Or.inl rfl
      rcases List.mem_cons.mp hc2 with rfl | hc3
      · exact Or.inr (Or.inl rfl)
      rcases subDblOpenF_chars fuel rest c hc3 with h | h | h
      · exact Or.inl h
      · exact Or.inr (Or.inl h)
      · exact Or.inr (Or.inr (dblOpenRest_subset hro c h))
    | none =>
      rw [hro] at hc
      cases l with
      | nil => simp at hc
      | cons d r =>
        rcases List.mem_cons.mp hc with rfl | hc2
        · exact Or.inr (Or.inr (List.mem_cons_self _ _))
        rcases subDblOpenF_chars fuel r c hc2 with h | h | h
        · exact Or.inl h
        · exact Or.inr (Or.inl h)
        · exact Or.inr (Or.inr (List.mem_cons_of_mem _ h))

theorem subDblCloseF_chars : ∀ (fuel : Nat) (l : List Char),
    ∀ c ∈ subDblCloseF fuel l, c = ' ' ∨ c = ')' ∨ c ∈ l
  | 0, l => by
    intro c hc
    exact Or.inr (Or.inr hc)
  | fuel + 1, l => by
    intro c hc
    simp only [subDblCloseF] at hc
    cases hro : dblCloseRest l with
    | some rest =>
      rw [hro] at hc
      rcases List.mem_cons.mp hc with rfl | hc2
      · exact Or.inr (Or.inl rfl)
      rcases List.mem_cons.mp hc2 with rfl | hc3
      · exact Or.inl rfl
      rcases subDblCloseF_chars fuel rest c hc3 with h | h | h
      · exact Or.inl h
      · exact Or.inr (Or.inl h)
      · exact Or.inr (Or.inr (dblCloseRest_subset hro c h))
    | none =>
      rw [hro] at hc
      cases l with
      | nil => simp at hc
      | cons d r =>
        rcases List.mem_cons.mp hc with rfl | hc2
        · exact Or.inr (Or.inr (List.mem_cons_self _ _))
        rcases subDblCloseF_chars fuel r c hc2 with h | h | h
        · exact Or.inl h
        · exact Or.inr (Or.inl h)
        · exact Or.inr (Or.inr (List.mem_cons_of_mem _ h))

theorem repairedStem_chars (x : String) : ∀ c ∈ repairedStem x,
    c ∈ x.data ∨ c = ' ' ∨ c = '(' ∨ c = ')' := by
  intro c hc
  unfold repairedStem at hc
  rcases subDblCloseF_chars _ _ c hc with h | h | h
  · exact Or.inr (Or.inl h)
  · exact Or.inr (Or.inr (Or.inr h))
  · rcases subDblOpenF_chars _ _ c h with h2 | h2 | h2
    · exact Or.inr (Or.inl h2)
    · exact Or.inr (Or.inr (Or.inl h2))
    · exact Or.inl (pyName_chars x c (pyStem_chars x c h2))

set_option maxHeartbeats 1000000 in
theorem extract_title_sub {x : String} {t y : String}
    (h : extract_title_year x = some (t, y)) :
    ∃ c, t.data = cleanTitle c ∧ ∀ ch ∈ c, ch ∈ repairedStem x := by
  unfold extract_title_year extract_title_year_w at h
  cases hy : scanYear (repairedStem x) with
  | some p =>
    obtain ⟨c, y0⟩ := p
    simp only [hy] at h
    split at h
    · cases h
    · injection h with h2
      injection h2 with h3 h4
      subst h3
      refine ⟨c, rfl, ?_⟩
      obtain ⟨j, hocc, hmin, hc, hty⟩ := (scanYear_some_occ _ _ _).mp hy
      subst hc
      exact fun ch hch => List.take_subset _ _ hch
  | none =>
    simp only [hy] at h
    cases ht : scanTrunc (repairedStem x) with
    | some p =>
      obtain ⟨c, m⟩ := p
      simp only [ht] at h
      split at h
      · cases h
      · injection h with h2
        injection h2 with h3 h4
        subst h3
        refine ⟨c, rfl, ?_⟩
        obtain ⟨j, hocc, hmin, hc, hty⟩ := (scanTrunc_some_occ _ _ _).mp ht
        subst hc
        exact fun ch hch => List.take_subset _ _ hch
    | none =>
      simp only [ht] at h
      cases h

theorem extract_no_slash {x : String} {t y : String}
    (h : extract_title_year x = some (t, y)) (hx : '/' ∉ x.data) :
    '/' ∉ t.data := by
  obtain ⟨c, hts, hsub⟩ := extract_title_sub h
  intro hsl
  rw [hts] at hsl
  rcases cleanTitle_chars _ hsl with h2 | h2
  · exact absurd h2 (by decide)
  · have h3 := hsub _ h2
    rcases repairedStem_chars x _ h3 with h4 | h4 | h4 | h4
    · exact hx h4
    · exact absurd h4 (by decide)
    · exact absurd h4 (by decide)
    · exact absurd h4 (by decide)

theorem extract_no_dot {x : String} {t y : String}
    (h : extract_title_year x = some (t, y)) : '.' ∉ t.data := by
  obtain ⟨⟨c, hts, -⟩, -⟩ := extract_some_parts h
  intro hd
  rw [hts] at hd
  have h2 := cleanTitle_no_dotund '.' hd
  simp [isDotUnd] at h2

theorem extract_year_chars {x : String} {t y : String}
    (h : extract_title_year x = some (t, y)) :
    '.' ∉ y.data ∧ '/' ∉ y.data := by
  obtain ⟨-, hys⟩ := extract_some_parts h
  have hd := yearShape_chars hys
  constructor
  · intro hm
    exact (isDigit_facts (hd _ hm)).1 rfl
  · intro hm
    exact (isDigit_facts (hd _ hm)).2.1 rfl

theorem format_name_data (t y : String) :
    (format_name t y).data = t.data ++ ' ' :: '(' :: (y.data ++ [')']) := by
  unfold format_name
  rw [String.data_append, String.data_append, String.data_append]
  have h1 : (" (" : String).data = [' ', '('] := rfl
  have h2 : (")" : String).data = [')'] := rfl
  rw [h1, h2]
  simp

theorem formatted_no_dot {x t y : String}
    (h : extract_title_year x = some (t, y)) :
    '.' ∉ (format_name t y).data ∧ (format_name t y).data ≠ [] := by
  rw [format_name_data]
  constructor
  · intro hm
    rcases List.mem_append.mp hm with hm2 | hm2
    · exact extract_no_dot h hm2
    · rcases List.mem_cons.mp hm2 with h3 | h3
      · exact absurd h3 (by decide)
      rcases List.mem_cons.mp h3 with h4 | h4
      · exact absurd h4 (by decide)
      rcases List.mem_append.mp h4 with h5 | h5
      · exact (extract_year_chars h).1 h5
      · simp at h5
  · intro hm
    simp at hm

theorem formatted_no_slash {x t y : String}
    (h : extract_title_year x = some (t, y)) (hx : '/' ∉ x.data) :
    '/' ∉ (format_name t y).data := by
  rw [format_name_data]
  intro hm
  rcases List.mem_append.mp hm with hm2 | hm2
  · exact extract_no_slash h hx hm2
  · rcases List.mem_cons.mp hm2 with h3 | h3
    · exact absurd h3 (by decide)
    rcases List.mem_cons.mp h3 with h4 | h4
    · exact absurd h4 (by decide)
    rcases List.mem_append.mp h4 with h5 | h5
    · exact (extract_year_chars h).2 h5
    · simp at h5

theorem pySuffix_data_eq {s : String} {A e : List Char}
    (hdata : s.data = A ++ '.' :: e) (hA : '.' ∉ A) (hAne : A ≠ [])
    (he : '.' ∉ e) (hene : e ≠ []) (hs : '/' ∉ s.data) :
    (pySuffix s).data = '.' :: e := by
  have hseq : s = String.mk (A ++ '.' :: e) := by
    cases s with
    | mk d =>
      simp only at hdata
      rw [hdata]
  rw [hseq] at hs ⊢
  rw [pySuffix_append hA hAne he hene hs]

theorem suffix_of_video {n : String} (h : suffixLower n ∈ video_extensions) :
    ∃ e, (pySuffix n).data = '.' :: e ∧ '.' ∉ e ∧ e ≠ [] := by
  rcases pySuffix_shape n with h0 | ⟨e, h1, h2, h3⟩
  · unfold suffixLower at h
    rw [h0] at h
    exact absurd h (by decide)
  · exact ⟨e, h1, h2, h3⟩

theorem new_name_suffixLower {m t y : String} {e : List Char}
    (h : extract_title_year m = some (t, y)) (hm : '/' ∉ m.data)
    (hsuf : (pySuffix m).data = '.' :: e) (he : '.' ∉ e) (hene : e ≠ []) :
    suffixLower (format_name t y ++ pySuffix m) = suffixLower m ∧
    '/' ∉ (format_name t y ++ pySuffix m).data := by
  have hdata : (format_name t y ++ pySuffix m).data =
      (format_name t y).data ++ '.' :: e := by
    rw [String.data_append, hsuf]
  have hslash : '/' ∉ (format_name t y ++ pySuffix m).data := by
    rw [hdata]
    intro hmem
    rcases List.mem_append.mp hmem with h2 | h2
    · exact formatted_no_slash h hm h2
    · rcases List.mem_cons.mp h2 with h3 | h3
      · exact absurd h3 (by decide)
      · have h4 : '/' ∈ (pySuffix m).data := by
          rw [hsuf]
          exact List.mem_cons_of_mem _ h3
        exact hm (pySuffix_chars m _ h4)
  refine ⟨?_, hslash⟩
  have hsd : (pySuffix (format_name t y ++ pySuffix m)).data = '.' :: e :=
    pySuffix_data_eq hdata (formatted_no_dot h).1 (formatted_no_dot h).2 he hene hslash
  unfold suffixLower
  rw [hsd, hsuf]

theorem lookup_mem {l : Listing} {n : String} {e : FSEntry}
    (h : lookupEntry l n = some e) : e ∈ l ∧ e.name = n := by
  unfold lookupEntry at h
  refine ⟨List.mem_of_find?_eq_some h, ?_⟩
  have h2 := List.find?_some h
  simpa using h2

theorem lookup_none_not_mem {l : Listing} {n : String}
    (h : lookupEntry l n = none) : ∀ e ∈ l, e.name ≠ n := by
  unfold lookupEntry at h
  intro e he
  have h2 := List.find?_eq_none.mp h e he
  simpa using h2

theorem lookup_nodup_file {l : Listing} {n : String} {c : Nat}
    (hnd : (l.map FSEntry.name).Nodup) (hmem : FSEntry.file n c ∈ l) :
    lookupEntry l n = some (FSEntry.file n c) := by
  induction l with
  | nil => cases hmem
  | cons e rest ih =>
    rw [List.map_cons, List.nodup_cons] at hnd
    rcases List.mem_cons.mp hmem with rfl | h2
    · unfold lookupEntry
      rw [List.find?_cons_of_pos]
      simp [FSEntry.name]
    · by_cases he : e.name = n
      · have h3 : n ∈ rest.map FSEntry.name := by
          have := List.mem_map_of_mem FSEntry.name h2
          simpa [FSEntry.name] using this
        exact absurd (he ▸ h3) hnd.1
      · unfold lookupEntry
        rw [List.find?_cons_of_neg _ (by simpa using he)]
        exact ih hnd.2 h2

theorem filter_name_map (l : Listing) (fn : String) :
    (l.filter (fun e => e.name ≠ fn)).map FSEntry.name =
      (l.map FSEntry.name).filter (fun x => x ≠ fn) := by
  induction l with
  | nil => rfl
  | cons e rest ih =>
    rw [List.map_cons, List.filter_cons, List.filter_cons]
    by_cases h : e.name = fn
    · have hc : ¬(decide (e.name ≠ fn) = true) := by simp [h]
      rw [if_neg hc, if_neg hc]
      exact ih
    · have hc : decide (e.name ≠ fn) = true := by simp [h]
      rw [if_pos hc, if_pos hc, List.map_cons, ih]

theorem renameFileOver_mem {l : Listing} {n : String} {c : Nat} {src dst : String}
    (hmem : FSEntry.file n c ∈ l) (hs : n ≠ src) (hd : n ≠ dst) :
    FSEntry.file n c ∈ renameFileOver l src dst := by
  unfold renameFileOver
  have h1 : FSEntry.file n c ∈ l.filter (fun e => e.name ≠ dst) := by
    rw [List.mem_filter]
    exact ⟨hmem, by simpa [FSEntry.name] using hd⟩
  refine List.mem_map.mpr ⟨FSEntry.file n c, h1, ?_⟩
  simp only [FSEntry.name]
  rw [if_neg hs]

theorem renameFileOver_name_map (l : Listing) (src dst : String) :
    (renameFileOver l src dst).map FSEntry.name =
      ((l.map FSEntry.name).filter (fun x => x ≠ dst)).map
        (fun x => if x = src then dst else x) := by
  unfold renameFileOver
  rw [← filter_name_map, List.map_map, List.map_map]
  apply List.map_congr_left
  intro e he
  cases e with
  | file a b =>
    by_cases h : a = src
    · simp [FSEntry.name, h]
    · simp [FSEntry.name, h]
  | dir a k =>
    by_cases h : a = src
    · simp [FSEntry.name, h]
    · simp [FSEntry.name, h]

theorem rename_names_nodup {names : List String} {src dst : String}
    (h : names.Nodup) :
    (((names.filter (fun x => x ≠ dst))).map
      (fun x => if x = src then dst else x)).Nodup := by
  apply List.Nodup.map_on
  · intro a ha b hb hfab
    have ha2 := List.mem_filter.mp ha
    have hb2 := List.mem_filter.mp hb
    by_cases h1 : a = src <;> by_cases h2 : b = src
    · rw [h1, h2]
    · rw [if_pos h1, if_neg h2] at hfab
      exact absurd hfab.symm (by simpa using hb2.2)
    · rw [if_neg h1, if_pos h2] at hfab
      exact absurd hfab (by simpa using ha2.2)
    · rwa [if_neg h1, if_neg h2] at hfab
  · exact h.filter _

theorem rename_all_nodup {names : List String} {src dst : String}
    (h : names.Nodup) (hdst : dst ∉ names) :
    (names.map (fun x => if x = src then dst else x)).Nodup := by
  apply List.Nodup.map_on
  · intro a ha b hb hfab
    by_cases h1 : a = src <;> by_cases h2 : b = src
    · rw [h1, h2]
    · rw [if_pos h1, if_neg h2] at hfab
      exact absurd (hfab ▸ hb) hdst
    · rw [if_neg h1, if_pos h2] at hfab
      exact absurd (hfab ▸ ha) hdst
    · rwa [if_neg h1, if_neg h2] at hfab
  · exact h

theorem slash_of_names {l2 : Listing} {names2 : List String}
    (h : l2.map FSEntry.name = names2) (hall : ∀ x ∈ names2, '/' ∉ x.data) :
    ∀ e ∈ l2, '/' ∉ e.name.data := by
  intro e he
  exact hall e.name (h ▸ List.mem_map_of_mem _ he)

theorem rename_names_slash {names : List String} {src dst : String}
    (hsl : ∀ x ∈ names, '/' ∉ x.data) (hd : '/' ∉ dst.data) :
    ∀ x ∈ (names.filter (fun x => x ≠ dst)).map
      (fun x => if x = src then dst else x), '/' ∉ x.data := by
  intro x hx
  obtain ⟨x0, hx0, rfl⟩ := List.mem_map.mp hx
  by_cases h1 : x0 = src
  · rw [if_pos h1]
    exact hd
  · rw [if_neg h1]
    exact hsl x0 (List.mem_filter.mp hx0).1

theorem rename_all_slash {names : List String} {src dst : String}
    (hsl : ∀ x ∈ names, '/' ∉ x.data) (hd : '/' ∉ dst.data) :
    ∀ x ∈ names.map (fun x => if x = src then dst else x), '/' ∉ x.data := by
  intro x hx
  obtain ⟨x0, hx0, rfl⟩ := List.mem_map.mp hx
  by_cases h1 : x0 = src
  · rw [if_pos h1]
    exact hd
  · rw [if_neg h1]
    exact hsl x0 hx0

theorem renameDirEntry_mem {l : Listing} {k : String} {c : Nat} {n m : String}
    (hmem : FSEntry.file k c ∈ l) (hk : k ≠ n) :
    FSEntry.file k c ∈ renameDirEntry l n m := by
  unfold renameDirEntry
  refine List.mem_map.mpr ⟨FSEntry.file k c, hmem, ?_⟩
  simp only [FSEntry.name]
  rw [if_neg hk]

theorem renameDirEntry_name_map (l : Listing) (n m : String) :
    (renameDirEntry l n m).map FSEntry.name =
      (l.map FSEntry.name).map (fun x => if x = n then m else x) := by
  unfold renameDirEntry
  rw [List.map_map, List.map_map]
  apply List.map_congr_left
  intro e he
  cases e with
  | file a b =>
    by_cases h : a = n
    · simp [FSEntry.name, h]
    · simp [FSEntry.name, h]
  | dir a k =>
    by_cases h : a = n
    · simp [FSEntry.name, h]
    · simp [FSEntry.name, h]

theorem replaceDirChildren_mem {l : Listing} {k : String} {c : Nat}
    {n : String} {kids : Listing} (hmem : FSEntry.file k c ∈ l) :
    FSEntry.file k c ∈ replaceDirChildren l n kids := by
  unfold replaceDirChildren
  exact List.mem_map.mpr ⟨FSEntry.file k c, hmem, rfl⟩

theorem replaceDirChildren_name_map (l : Listing) (n : String) (kids : Listing) :
    (replaceDirChildren l n kids).map FSEntry.name = l.map FSEntry.name := by
  unfold replaceDirChildren
  rw [List.map_map]
  apply List.map_congr_left
  intro e he
  cases e with
  | file a b => rfl
  | dir a k =>
    by_cases h : a = n
    · simp [FSEntry.name, h]
    · simp [FSEntry.name, h]

theorem names_slash_of {l : Listing} (hsl : ∀ e ∈ l, '/' ∉ e.name.data) :
    ∀ x ∈ l.map FSEntry.name, '/' ∉ x.data := by
  intro x hx
  obtain ⟨e0, he0, rfl⟩ := List.mem_map.mp hx
  exact hsl e0 he0

theorem process_file_frame {l : Listing} {m n : String} {c : Nat}
    (hnd : (l.map FSEntry.name).Nodup)
    (hsl : ∀ e ∈ l, '/' ∉ e.name.data)
    (hmem : FSEntry.file n c ∈ l)
    (hnv : suffixLower n ∉ video_extensions)
    (hm : '/' ∉ m.data) :
    ((process_file l m).1.map FSEntry.name).Nodup ∧
    (∀ e ∈ (process_file l m).1, '/' ∉ e.name.data) ∧
    FSEntry.file n c ∈ (process_file l m).1 := by
  unfold process_file
  cases hv : video_extensions.contains (suffixLower m) with
  | false =>
    exact ⟨hnd, hsl, hmem⟩
  | true =>
    simp only [Bool.not_true]
    rw [if_neg (by decide)]
    cases hw : extract_title_year_w m with
    | mk o ws =>
      cases o with
      | none =>
        exact ⟨hnd, hsl, hmem⟩
      | some p =>
        obtain ⟨t, y⟩ := p
        simp only []
        have hext : extract_title_year m = some (t, y) := by
          unfold extract_title_year
          rw [hw]
        have hvmem : suffixLower m ∈ video_extensions := by simpa using hv
        obtain ⟨e, hsuf, he, hene⟩ := suffix_of_video hvmem
        obtain ⟨hsLeq, hslashNN⟩ := new_name_suffixLower hext hm hsuf he hene
        have hnem : n ≠ m := by
          intro heq
          rw [heq] at hnv
          exact hnv hvmem
        have hnedst : n ≠ format_name t y ++ pySuffix m := by
          intro heq
          rw [heq, hsLeq] at hnv
          exact hnv hvmem
        by_cases hmn : m = format_name t y ++ pySuffix m
        · rw [if_neg (by simpa using hmn)]
          exact ⟨hnd, hsl, hmem⟩
        · rw [if_pos hmn]
          cases hlk : lookupEntry l (format_name t y ++ pySuffix m) with
          | none =>
            simp only []
            refine ⟨?_, ?_, ?_⟩
            · rw [renameFileOver_name_map]
              exact rename_names_nodup hnd
            · exact slash_of_names (renameFileOver_name_map l m _)
                (rename_names_slash (names_slash_of hsl) hslashNN)
            · exact renameFileOver_mem hmem hnem hnedst
          | some e2 =>
            cases e2 with
            | dir a k =>
              exact ⟨hnd, hsl, hmem⟩
            | file a b =>
              simp only []
              refine ⟨?_, ?_, ?_⟩
              · rw [renameFileOver_name_map]
                exact rename_names_nodup hnd
              · exact slash_of_names (renameFileOver_name_map l m _)
                  (rename_names_slash (names_slash_of hsl) hslashNN)
              · exact renameFileOver_mem hmem hnem hnedst

theorem process_folder_frame {l : Listing} {m n : String} {c : Nat}
    (hnd : (l.map FSEntry.name).Nodup)
    (hsl : ∀ e ∈ l, '/' ∉ e.name.data)
    (hmem : FSEntry.file n c ∈ l)
    (hm : '/' ∉ m.data) :
    ((process_folder l m).1.map FSEntry.name).Nodup ∧
    (∀ e ∈ (process_folder l m).1, '/' ∉ e.name.data) ∧
    FSEntry.file n c ∈ (process_folder l m).1 := by
  unfold process_folder
  cases hlk : lookupEntry l m with
  | none => exact ⟨hnd, hsl, hmem⟩
  | some e0 =>
    cases e0 with
    | file a b => exact ⟨hnd, hsl, hmem⟩
    | dir a kids =>
      simp only []
      have hmn : m ≠ n := by
        intro heq
        rw [heq] at hlk
        rw [lookup_nodup_file hnd hmem] at hlk
        simp at hlk
      cases hw : extract_title_year_w m with
      | mk o ws =>
        cases o with
        | none =>
          simp only []
          cases hpc : process_folder_contents kids m with
          | mk k1 ev =>
            simp only []
            refine ⟨?_, ?_, ?_⟩
            · rw [replaceDirChildren_name_map]
              exact hnd
            · exact slash_of_names (replaceDirChildren_name_map l m k1)
                (names_slash_of hsl)
            · exact replaceDirChildren_mem hmem
        | some p =>
          obtain ⟨t, y⟩ := p
          simp only []
          have hext : extract_title_year m = some (t, y) := by
            unfold extract_title_year
            rw [hw]
          have hfslash : '/' ∉ (format_name t y).data := formatted_no_slash hext hm
          by_cases hne : m = format_name t y
          · rw [if_neg (by simp [hne])]
            cases hpc : process_folder_contents kids m with
            | mk k1 ev =>
              simp only []
              refine ⟨?_, ?_, ?_⟩
              · rw [replaceDirChildren_name_map]
                exact hnd
              · exact slash_of_names (replaceDirChildren_name_map l m k1)
                  (names_slash_of hsl)
              · exact replaceDirChildren_mem hmem
          · rw [if_pos hne]
            cases hlk2 : lookupEntry l (format_name t y) with
            | none =>
              simp only []
              have hfn_not : ∀ e2 ∈ l, e2.name ≠ format_name t y :=
                lookup_none_not_mem hlk2
              cases hpc : process_folder_contents kids (format_name t y) with
              | mk k1 ev =>
                simp only []
                refine ⟨?_, ?_, ?_⟩
                · rw [replaceDirChildren_name_map, renameDirEntry_name_map]
                  apply rename_all_nodup hnd
                  intro hmm
                  obtain ⟨e2, he2, hne2⟩ := List.mem_map.mp hmm
                  exact hfn_not e2 he2 hne2
                · refine slash_of_names ?_
                    (@rename_all_slash (l.map FSEntry.name) m (format_name t y)
                      (names_slash_of hsl) hfslash)
                  rw [replaceDirChildren_name_map, renameDirEntry_name_map]
                · exact replaceDirChildren_mem
                    (renameDirEntry_mem hmem (Ne.symm hmn))
            | some e2 =>
              cases e2 with
              | file a2 b2 => exact ⟨hnd, hsl, hmem⟩
              | dir a2 k2 =>
                simp only []
                have hnfn : n ≠ format_name t y := by
                  intro heq
                  rw [← heq] at hlk2
                  rw [lookup_nodup_file hnd hmem] at hlk2
                  simp at hlk2
                cases hemp : k2.isEmpty with
                | false =>
                  rw [if_neg (by decide)]
                  exact ⟨hnd, hsl, hmem⟩
                | true =>
                  rw [if_pos rfl]
                  simp only []
                  cases hpc : process_folder_contents kids (format_name t y) with
                  | mk k1 ev =>
                    simp only []
                    refine ⟨?_, ?_, ?_⟩
                    · rw [replaceDirChildren_name_map, renameDirEntry_name_map,
                        filter_name_map]
                      exact rename_names_nodup hnd
                    · refine slash_of_names ?_
                        (@rename_names_slash (l.map FSEntry.name) m (format_name t y)
                          (names_slash_of hsl) hfslash)
                      rw [replaceDirChildren_name_map, renameDirEntry_name_map,
                        filter_name_map]
                    · refine replaceDirChildren_mem
                        (renameDirEntry_mem ?_ (Ne.symm hmn))
                      rw [List.mem_filter]
                      refine ⟨hmem, ?_⟩
                      simpa [FSEntry.name] using hnfn

theorem processItems_frame : ∀ (items : List (String × Bool)) (l : Listing)
    {n : String} {c : Nat},
    (l.map FSEntry.name).Nodup →
    (∀ e ∈ l, '/' ∉ e.name.data) →
    FSEntry.file n c ∈ l →
    suffixLower n ∉ video_extensions →
    ((processItems l items).1.map FSEntry.name).Nodup ∧
    (∀ e ∈ (processItems l items).1, '/' ∉ e.name.data) ∧
    FSEntry.file n c ∈ (processItems l items).1
  | [], l => by
    intro hnd hsl hmem hnv
    exact ⟨hnd, hsl, hmem⟩
  | (m, b) :: rest, l => by
    intro hnd hsl hmem hnv
    simp only [processItems]
    cases hlk : lookupEntry l m with
    | none =>
      simp only []
      cases hpi : processItems l rest with
      | mk l2 ev2 =>
        simp only []
        have hrec := processItems_frame rest l hnd hsl hmem hnv
        rw [hpi] at hrec
        exact hrec
    | some e0 =>
      have hmname : e0.name = m := (lookup_mem hlk).2
      have hename : '/' ∉ m.data := by
        rw [← hmname]
        exact hsl e0 (lookup_mem hlk).1
      cases e0 with
      | file a bb =>
        simp only []
        cases hpf : process_file l m with
        | mk l1 ev1 =>
          simp only []
          have hstep := process_file_frame hnd hsl hmem hnv hename
          rw [hpf] at hstep
          cases hpi : processItems l1 rest with
          | mk l2 ev2 =>
            simp only []
            have hrec := processItems_frame rest l1 hstep.1 hstep.2.1 hstep.2.2 hnv
            rw [hpi] at hrec
            exact hrec
      | dir a kids =>
        simp only []
        cases hpf : process_folder l m with
        | mk l1 ev1 =>
          simp only []
          have hstep := process_folder_frame hnd hsl hmem hename
          rw [hpf] at hstep
          cases hpi : processItems l1 rest with
          | mk l2 ev2 =>
            simp only []
            have hrec := processItems_frame rest l1 hstep.1 hstep.2.1 hstep.2.2 hnv
            rw [hpi] at hrec
            exact hrec



/-! ## Claim theorems: concrete evaluations -/

/-- C1 (counterexample): the spec claims
`extract_title_year("Movie.Title.2015.1080p.BluRay.x264-RARBG.mkv")`
returns `("Movie Title", "2015")`; in fact both regexes require the year to
be parenthesized, and this dot-delimited name has no parentheses, so the
parser does not return that pair. -/
theorem C1_counterexample :
    extract_title_year "Movie.Title.2015.1080p.BluRay.x264-RARBG.mkv" ≠
      some ("Movie Title", "2015") := by
  decide

/-- C1 (amended): on the dot-delimited input
`"Movie.Title.2015.1080p.BluRay.x264-RARBG.mkv"` the parser reports
NoMatch (`none`): a year is only recognized inside parentheses, so no
year and no title are extracted from this name. -/
theorem C1_amended_no_match :
    extract_title_year "Movie.Title.2015.1080p.BluRay.x264-RARBG.mkv" = none := rfl

/-- C2 (code evaluation): with movie name `"Alpha (2020)"` and two
subtitle files, the second file is moved to `Subs` under the name
`"Alpha (2020)..srt"` — with an extra dot before the extension — not
`"Alpha (2020).srt"` as the claim states, because the source writes
`movie_name`, a literal dot, then `sub_file.suffix` (which itself starts
with a dot).  With three files the third is moved to
`"Alpha (2020).2.srt"`, which does agree with the claim. -/
theorem C2_second_subtitle_double_dot :
    organize_subtitles [.file "a.en.srt" 0, .file "b.fr.srt" 1] "Alpha (2020)" =
      ([.file "Alpha (2020).srt" 0, .dir "Subs" [.file "Alpha (2020)..srt" 1]],
       [.movedSub "b.fr.srt" "Alpha (2020)..srt",
        .renamed "a.en.srt" "Alpha (2020).srt"]) ∧
    organize_subtitles [.file "a.srt" 0, .file "b.srt" 1, .file "c.srt" 2]
        "Alpha (2020)" =
      ([.file "Alpha (2020).srt" 0,
        .dir "Subs" [.file "Alpha (2020)..srt" 1, .file "Alpha (2020).2.srt" 2]],
       [.movedSub "b.srt" "Alpha (2020)..srt",
        .movedSub "c.srt" "Alpha (2020).2.srt",
        .renamed "a.srt" "Alpha (2020).srt"]) := ⟨rfl, rfl⟩

/-- C3 (code evaluation): a folder holding two videos with the same
extension.  Both renames target `"M (2001).mkv"`; POSIX `os.rename`
replaces an existing file silently, so no exception is raised, no error is
reported, and the content first renamed to the canonical name (tag `0`) is
replaced by the second video (tag `1`). -/
theorem C3_same_extension_silent_overwrite :
    process_folder_contents [.file "a.mkv" 0, .file "b.mkv" 1] "M (2001)" =
      ([.file "M (2001).mkv" 1],
       [.renamed "a.mkv" "M (2001).mkv", .renamed "b.mkv" "M (2001).mkv"]) ∧
    ∀ m, Event.renameErr m ∉
      (process_folder_contents [.file "a.mkv" 0, .file "b.mkv" 1] "M (2001)").2 := by
  have h : remove_unwanted_files [.file "a.mkv" 0, .file "b.mkv" 1] =
      ([.file "a.mkv" 0, .file "b.mkv" 1], []) := by
    simp +decide [remove_unwanted_files, remove_unwanted_aux]
  have h2 : process_folder_contents [.file "a.mkv" 0, .file "b.mkv" 1] "M (2001)" =
      ([.file "M (2001).mkv" 1],
       [.renamed "a.mkv" "M (2001).mkv", .renamed "b.mkv" "M (2001).mkv"]) := by
    unfold process_folder_contents
    rw [h]
    rfl
  refine ⟨h2, ?_⟩
  intro m
  rw [h2]
  simp

/-- C5 (counterexample): the parse-then-format pipeline is not idempotent.
On `"A (1999.) B (2005).mkv"` the parser returns the pair
`("A (1999 ) B", "2005")` — the title-cleanup turned `"(1999.)"` into
`"(1999 )"`, which the primary regex now accepts as a year group — so
re-parsing the formatted name `"A (1999 ) B (2005)"` matches the earlier
group and returns `("A", "1999")`, a different pair. -/
theorem C5_counterexample :
    extract_title_year "A (1999.) B (2005).mkv" = some ("A (1999 ) B", "2005") ∧
    extract_title_year (format_name "A (1999 ) B" "2005") = some ("A", "1999") :=
  ⟨rfl, rfl⟩

/-- C4 (counterexample): the repaired stem of `"A (1999) B (2005).mkv"`
holds two parenthesized year groups (split positions 1 and 10); the claim
says the last one (year `"2005"`, title candidate `"A (1999) B"`) is used,
but the non-greedy `(.+?)` makes the regex take the first one, returning
`("A", "1999")`. -/
theorem C4_counterexample :
    OccYear (repairedStem "A (1999) B (2005).mkv") 1 ∧
    OccYear (repairedStem "A (1999) B (2005).mkv") 10 ∧
    extract_title_year "A (1999) B (2005).mkv" ≠ some ("A (1999) B", "2005") ∧
    extract_title_year "A (1999) B (2005).mkv" = some ("A", "1999") :=
  ⟨by decide, by decide, by decide, rfl⟩

/-- C4 (amended): when the repaired stem has more than one parenthesized
4-digit-year group, `extract_title_year` uses the FIRST such group (the
least split position): the year is that group's digits and the title
candidate is everything before the group. -/
theorem C4_amended_first_year_group (x : String) (j1 j2 : Nat)
    (h1 : OccYear (repairedStem x) j1) (h2 : OccYear (repairedStem x) j2)
    (hlt : j1 < j2) (hmin : ∀ i < j1, ¬ OccYear (repairedStem x) i) :
    ∃ y, tailYear ((repairedStem x).drop j1) = some y ∧
      extract_title_year x =
        (if cleanTitle ((repairedStem x).take j1) = [] then none
         else some (String.mk (cleanTitle ((repairedStem x).take j1)),
           String.mk y)) := by
  have h3 := h1.2.2
  cases hy : tailYear ((repairedStem x).drop j1) with
  | none =>
    rw [hy] at h3
    simp at h3
  | some y =>
    refine ⟨y, rfl, ?_⟩
    have hscan : scanYear (repairedStem x) =
        some ((repairedStem x).take j1, y) :=
      (scanYear_some_occ _ _ _).mpr ⟨j1, h1, hmin, rfl, hy⟩
    exact extract_of_scanYear_some hscan

/-- C4 (witness): the amended claim applied to
`"A (1999) B (2005).mkv"` with first group at split 1 and a second group
at split 10. -/
theorem C4_witness :
    ∃ y, tailYear ((repairedStem "A (1999) B (2005).mkv").drop 1) = some y ∧
      extract_title_year "A (1999) B (2005).mkv" =
        (if cleanTitle ((repairedStem "A (1999) B (2005).mkv").take 1) = []
         then none
         else some (String.mk
             (cleanTitle ((repairedStem "A (1999) B (2005).mkv").take 1)),
           String.mk y)) :=
  C4_amended_first_year_group "A (1999) B (2005).mkv" 1 10
    (by decide) (by decide) (by decide) (by decide)

/-- C8: `extract_title_year` reports NoMatch (`none`) exactly when no
usable `(title, year)` exists: when the repaired stem has neither a
parenthesized 4-digit-year group nor a truncated marker group, or when the
matched group's title candidate cleans to the empty string; in particular
`"randomfile.mkv"` yields NoMatch. -/
theorem C8_none_characterization :
    (∀ x : String,
      extract_title_year x = none ↔
        ((∀ j, ¬ OccYear (repairedStem x) j) ∧
          (∀ j, ¬ OccTrunc (repairedStem x) j)) ∨
        (∃ j, OccYear (repairedStem x) j ∧ (∀ i < j, ¬ OccYear (repairedStem x) i) ∧
          cleanTitle ((repairedStem x).take j) = []) ∨
        ((∀ j, ¬ OccYear (repairedStem x) j) ∧
          ∃ j, OccTrunc (repairedStem x) j ∧ (∀ i < j, ¬ OccTrunc (repairedStem x) i) ∧
            cleanTitle ((repairedStem x).take j) = [])) ∧
    extract_title_year "randomfile.mkv" = none := by
  refine ⟨?_, rfl⟩
  intro x
  cases hy : scanYear (repairedStem x) with
  | some p =>
    obtain ⟨c, y⟩ := p
    have hext := extract_of_scanYear_some hy
    obtain ⟨j, hocc, hmin, hc, hty⟩ := (scanYear_some_occ _ _ _).mp hy
    by_cases hcl : cleanTitle c = []
    · rw [hext, if_pos hcl]
      exact iff_of_true rfl (Or.inr (Or.inl ⟨j, hocc, hmin, by rw [← hc]; exact hcl⟩))
    · rw [hext, if_neg hcl]
      refine iff_of_false (by simp) ?_
      rintro (⟨hA, -⟩ | ⟨j2, hocc2, hmin2, hcl2⟩ | ⟨hA, -⟩)
      · exact hA j hocc
      · have hj : j2 = j := least_unique hocc2 hmin2 hocc hmin
        subst hj
        rw [← hc] at hcl2
        exact hcl hcl2
      · exact hA j hocc
  | none =>
    have hAY : ∀ j, ¬ OccYear (repairedStem x) j := (scanYear_none_occ _).mp hy
    cases ht : scanTrunc (repairedStem x) with
    | some p =>
      obtain ⟨c, m⟩ := p
      have hext := (extract_of_scanTrunc_some hy ht).1
      obtain ⟨j, hocc, hmin, hc, htt⟩ := (scanTrunc_some_occ _ _ _).mp ht
      by_cases hcl : cleanTitle c = []
      · rw [hext, if_pos hcl]
        exact iff_of_true rfl
          (Or.inr (Or.inr ⟨hAY, j, hocc, hmin, by rw [← hc]; exact hcl⟩))
      · rw [hext, if_neg hcl]
        refine iff_of_false (by simp) ?_
        rintro (⟨-, hB⟩ | ⟨j2, hocc2, -, -⟩ | ⟨-, j2, hocc2, hmin2, hcl2⟩)
        · exact hB j hocc
        · exact hAY j2 hocc2
        · have hj : j2 = j := least_unique hocc2 hmin2 hocc hmin
          subst hj
          rw [← hc] at hcl2
          exact hcl hcl2
    | none =>
      have hAT : ∀ j, ¬ OccTrunc (repairedStem x) j := (scanTrunc_none_occ _).mp ht
      rw [extract_of_scan_none hy ht]
      exact iff_of_true rfl (Or.inl ⟨hAY, hAT⟩)

/-- C6: on an input whose repaired stem has no parenthesized 4-digit-year
group but has a truncated marker group `(19)` or `(20)` after a title that
cleans to a nonempty string, `extract_title_year` succeeds with the
defaulted year — `"1999"` for marker `19`, `"2020"` for marker `20` — and
the truncated-year warning is emitted. -/
theorem C6_truncated_marker_default (x : String) (j : Nat)
    (hny : ∀ i ≤ (repairedStem x).length, ¬ OccYear (repairedStem x) i)
    (hocc : OccTrunc (repairedStem x) j)
    (hmin : ∀ i < j, ¬ OccTrunc (repairedStem x) i)
    (hne : cleanTitle ((repairedStem x).take j) ≠ []) :
    ∃ m, tailTrunc ((repairedStem x).drop j) = some m ∧
      extract_title_year x =
        some (String.mk (cleanTitle ((repairedStem x).take j)),
          if m = ['1', '9'] then "1999" else "2020") ∧
      (extract_title_year_w x).2 =
        ["    Found truncated year (" ++ String.mk m ++ ") - using "
          ++ (if m = ['1', '9'] then "1999" else "2020") ++ " as default"] := by
  have hy : scanYear (repairedStem x) = none := by
    rw [scanYear_none_occ]
    intro i hocc2
    exact hny i (occYear_le_length hocc2) hocc2
  have h3 := hocc.2.2
  cases htt : tailTrunc ((repairedStem x).drop j) with
  | none =>
    rw [htt] at h3
    simp at h3
  | some m =>
    have ht : scanTrunc (repairedStem x) = some ((repairedStem x).take j, m) :=
      (scanTrunc_some_occ _ _ _).mpr ⟨j, hocc, hmin, rfl, htt⟩
    obtain ⟨he1, he2⟩ := extract_of_scanTrunc_some hy ht
    refine ⟨m, rfl, ?_, he2⟩
    rw [he1, if_neg hne]

/-- C6 (witness): the defaulted-year rule applied to
`"Old Show (19).avi"`, whose truncated marker sits at split position 8,
giving `("Old Show", "1999")` with the warning emitted. -/
theorem C6_witness :
    ∃ m, tailTrunc ((repairedStem "Old Show (19).avi").drop 8) = some m ∧
      extract_title_year "Old Show (19).avi" =
        some (String.mk (cleanTitle ((repairedStem "Old Show (19).avi").take 8)),
          if m = ['1', '9'] then "1999" else "2020") ∧
      (extract_title_year_w "Old Show (19).avi").2 =
        ["    Found truncated year (" ++ String.mk m ++ ") - using "
          ++ (if m = ['1', '9'] then "1999" else "2020") ++ " as default"] :=
  C6_truncated_marker_default "Old Show (19).avi" 8
    (by decide) (by decide) (by decide) (by decide)

/-- C9: `process_directory` visits the snapshot of the root's immediate
children sorted by the key `(is_file, name.lower())`: the visit list is a
permutation of the children that puts every folder before every file and
orders each kind case-insensitively by name. -/
theorem C9_visit_order (l : Listing) :
    process_directory l = processItems l (sortedChildren l) ∧
    (sortedChildren l).Perm (l.map (fun e => (e.name, e.isFile))) ∧
    (sortedChildren l).Pairwise childOrder := by
  refine ⟨rfl, List.mergeSort_perm _ _, ?_⟩
  have hs := @List.sorted_mergeSort (String × Bool) itemLe itemLe_trans itemLe_total
    (l.map (fun e => (e.name, e.isFile)))
  exact hs.imp childOrder_of_itemLe

/-- C7: `remove_unwanted_files` deletes a file if and only if its
lowercased `pathlib` suffix is in `unwanted_extensions`, at every nesting
depth: the files surviving in the tree are exactly those whose suffix is
not unwanted, and the returned deleted-path list is exactly the unwanted
files, each at its original depth. -/
theorem C7_prune_exactly_unwanted (l : Listing) :
    filesOf "" (remove_unwanted_files l).1 =
      (filesOf "" l).filter
        (fun e => !(unwanted_extensions.contains (suffixLower e.2.1))) ∧
    (remove_unwanted_files l).2 =
      ((filesOf "" l).filter
        (fun e => unwanted_extensions.contains (suffixLower e.2.1))).map
        (fun e => e.1 ++ e.2.1) :=
  remove_unwanted_aux_spec "" l

set_option maxHeartbeats 2000000 in
/-- C5 (amended): the pipeline is idempotent on every successfully parsed
input whose title contains no parenthesis and no slash and is a fixed
point of the title cleanup: if `extract_title_year x = some (t, y)` with
such a `t`, then `extract_title_year (format_name t y) = some (t, y)`. -/
theorem C5_amended_idempotent (x t y : String)
    (hx : extract_title_year x = some (t, y))
    (hpar : ∀ c ∈ t.data, c ≠ '(' ∧ c ≠ ')' ∧ c ≠ '/')
    (hfix : cleanTitle t.data = t.data) :
    extract_title_year (format_name t y) = some (t, y) := by
  obtain ⟨⟨c0, htc, htne⟩, hys⟩ := extract_some_parts hx
  have ydig := yearShape_chars hys
  have hws : ∀ ch ∈ t.data, isSpaceCh ch = true → ch = ' ' := by
    rw [htc]
    exact cleanTitle_ws_space
  have hnodot : ∀ ch ∈ t.data, isDotUnd ch = false := by
    rw [htc]
    exact cleanTitle_no_dotund
  have hnl : ∀ ch ∈ t.data, (ch ≠ '\n') = True := by
    intro ch hch
    simp only [eq_iff_iff, iff_true]
    intro heq
    have h2 := hws ch hch (by rw [heq]; decide)
    rw [heq] at h2
    exact absurd h2 (by decide)
  have hlastq : ∀ a, t.data.getLast? = some a → inStripSet a = false := by
    intro a ha
    have hne : cleanTitle c0 ≠ [] := by
      rw [← htc]
      exact htne
    rw [htc] at ha
    rw [List.getLast?_eq_getLast _ hne] at ha
    injection ha with ha2
    rw [← ha2]
    exact cleanTitle_getLast hne
  have hlast_sp : ∀ a, t.data.getLast? = some a → isSpaceCh a = false := by
    intro a ha
    have h1 := hlastq a ha
    have hmem : a ∈ t.data := mem_of_getLast?_eq ha
    by_contra h2
    rw [Bool.not_eq_false] at h2
    have h3 := hws a hmem h2
    rw [h3] at h1
    exact absurd h1 (by decide)
  have hdata : (format_name t y).data =
      t.data ++ (' ' :: '(' :: (y.data ++ [')'])) := by
    unfold format_name
    rw [String.data_append, String.data_append, String.data_append]
    simp
  have hmem_cases : ∀ ch ∈ (format_name t y).data,
      ch ∈ t.data ∨ ch = ' ' ∨ ch = '(' ∨ ch ∈ y.data ∨ ch = ')' := by
    intro ch hch
    rw [hdata] at hch
    rcases List.mem_append.mp hch with h | h
    · exact Or.inl h
    · simp only [List.mem_cons, List.mem_append,
        List.not_mem_nil, or_false] at h
      rcases h with rfl | rfl | h | rfl
      · exact Or.inr (Or.inl rfl)
      · exact Or.inr (Or.inr (Or.inl rfl))
      · exact Or.inr (Or.inr (Or.inr (Or.inl h)))
      · exact Or.inr (Or.inr (Or.inr (Or.inr rfl)))
  have hstem : pyStem (format_name t y) = format_name t y := by
    have hslash : '/' ∉ (format_name t y).data := by
      intro hmem
      rcases hmem_cases _ hmem with h | h | h | h | h
      · exact (hpar _ h).2.2 rfl
      · exact absurd h (by decide)
      · exact absurd h (by decide)
      · exact (isDigit_facts (ydig _ h)).2.1 rfl
      · exact absurd h (by decide)
    have hne2 : (format_name t y).data ≠ [] := by
      rw [hdata]
      simp
    have hne3 : (format_name t y).data ≠ ['.'] := by
      rw [hdata]
      intro heq
      have h2 := congrArg List.length heq
      simp only [List.length_append, List.length_cons] at h2
      omega
    have hdot : '.' ∉ (format_name t y).data := by
      intro hmem
      rcases hmem_cases _ hmem with h | h | h | h | h
      · have h2 := hnodot _ h
        rw [show isDotUnd '.' = true from by decide] at h2
        cases h2
      · exact absurd h (by decide)
      · exact absurd h (by decide)
      · exact (isDigit_facts (ydig _ h)).1 rfl
      · exact absurd h (by decide)
    exact pyStem_no_dot (pyName_of_no_slash hslash hne2 hne3) hdot
  have hnoparen : '(' ∉ t.data := fun h => (hpar _ h).1 rfl
  have hnoparen2 : ')' ∉ t.data := fun h => (hpar _ h).2.1 rfl
  have hopen_count : (format_name t y).data.count '(' < 2 := by
    rw [hdata, List.count_append]
    have h1 : t.data.count '(' = 0 := List.count_eq_zero.mpr hnoparen
    have h2 : (' ' :: '(' :: (y.data ++ [')'])).count '(' = 1 := by
      simp only [List.count_cons, List.count_append]
      have h3 : y.data.count '(' = 0 := by
        rw [List.count_eq_zero]
        intro hmem
        exact (isDigit_facts (ydig _ hmem)).2.2.1 rfl
      simp [h3]
    omega
  have hclose_count : (format_name t y).data.count ')' < 2 := by
    rw [hdata, List.count_append]
    have h1 : t.data.count ')' = 0 := List.count_eq_zero.mpr hnoparen2
    have h2 : (' ' :: '(' :: (y.data ++ [')'])).count ')' = 1 := by
      simp only [List.count_cons, List.count_append]
      have h3 : y.data.count ')' = 0 := by
        rw [List.count_eq_zero]
        intro hmem
        exact (isDigit_facts (ydig _ hmem)).2.2.2.1 rfl
      simp [h3]
    omega
  have hrep : repairedStem (format_name t y) =
      t.data ++ (' ' :: '(' :: (y.data ++ [')'])) := by
    unfold repairedStem subDblOpen subDblClose
    rw [hstem]
    rw [subDblOpenF_id _ _ hopen_count]
    rw [subDblCloseF_id _ _ hclose_count]
    exact hdata
  have hLne : t.data ≠ [] := htne
  have hscan : scanYear (repairedStem (format_name t y)) =
      some (t.data, y.data) := by
    rw [hrep]
    rw [scanYear]
    rw [scanWith_eq_some_iff tailYear tailYear_nil]
    refine ⟨t.data.length, ?_, ?_, ?_, ?_, ?_⟩
    · have := List.length_pos.mpr hLne
      omega
    · rw [List.take_left]
    · rw [List.take_left, List.all_eq_true]
      intro ch hch
      simpa using hnl ch hch
    · rw [List.drop_left]
      exact tailYear_format hys
    · intro i hi1 hi2
      rw [List.drop_append_of_le_length (by omega)]
      have hglq : t.data.getLast? = some (t.data.getLast hLne) :=
        List.getLast?_eq_getLast _ hLne
      have hspl := hlast_sp _ hglq
      have hmemd : t.data.getLast hLne ∈ t.data.drop i :=
        getLast_mem_drop (by omega) hLne
      have hdw : (t.data.drop i).dropWhile isSpaceCh ≠ [] :=
        dropWhile_ne_nil_of_mem hmemd hspl
      obtain ⟨hd, tl, hdwe⟩ :
          ∃ hd tl, (t.data.drop i).dropWhile isSpaceCh = hd :: tl := by
        cases h9 : (t.data.drop i).dropWhile isSpaceCh with
        | nil => exact absurd h9 hdw
        | cons a b => exact ⟨a, b, rfl⟩
      have hskip : skipSp (t.data.drop i ++ (' ' :: '(' :: (y.data ++ [')']))) =
          hd :: (tl ++ (' ' :: '(' :: (y.data ++ [')']))) := by
        rw [skipSp_append_left hdw, hdwe]
        rfl
      have hhd_mem : hd ∈ t.data := by
        have h2 : hd ∈ (t.data.drop i).dropWhile isSpaceCh := by
          rw [hdwe]
          exact List.mem_cons_self _ _
        exact List.drop_subset _ _ ((List.dropWhile_sublist _).subset h2)
      exact tailYear_none_head hskip (hpar _ hhd_mem).1
  have hext := extract_of_scanYear_some hscan
  rw [hext, hfix, if_neg htne]

/-- C5 (witness): the amended idempotence applied to
`"Alpha (2020).mkv"`, whose title `"Alpha"` is parenthesis-free,
slash-free, and cleanup-fixed. -/
theorem C5_witness :
    extract_title_year (format_name "Alpha" "2020") = some ("Alpha", "2020") :=
  C5_amended_idempotent "Alpha (2020).mkv" "Alpha" "2020" rfl
    (by decide) (by decide)

/-- C10: a run of `process_directory` on a root listing with distinct,
slash-free entry names leaves every top-level regular file whose lowercased
extension is not a video extension fully intact: the same name with the
same content is still present in the resulting listing (it is neither
renamed, nor deleted, nor overwritten — pruning of unwanted extensions
applies only inside folders, never to loose files at the root). -/
theorem C10_non_video_top_file_untouched (l : Listing) (n : String) (c : Nat)
    (hnd : (l.map FSEntry.name).Nodup)
    (hsl : ∀ e ∈ l, '/' ∉ e.name.data)
    (hmem : FSEntry.file n c ∈ l)
    (hnv : suffixLower n ∉ video_extensions) :
    FSEntry.file n c ∈ (process_directory l).1 := by
  unfold process_directory
  exact (processItems_frame (sortedChildren l) l hnd hsl hmem hnv).2.2

/-- Concrete instance of C10: a root with a loose `readme.txt` (an
"unwanted" extension), a movie folder and a loose video; the text file
survives the full run untouched. -/
theorem C10_witness :
    FSEntry.file "readme.txt" 7 ∈
      (process_directory
        [FSEntry.file "readme.txt" 7,
         FSEntry.dir "Some Movie (2001)" [FSEntry.file "Some.Movie.2001.mkv" 1],
         FSEntry.file "Clip (2019).mkv" 2]).1 :=
  C10_non_video_top_file_untouched _ _ _ (by decide) (by decide)
    (List.mem_cons_self _ _) (by decide)

end MovieSync
